import Mathlib

/-!
# Verification of the node-db-kraken Scan-Cache Synchronization Engine

A shallow embedding, in Lean 4, of the core components of the repository:

* the framed binary disk-cache codec
  (`src/dynamo-db/cache-strategies/dynamodb-local-cache.strategy.ts`,
  `writeBinary` / `readBinary`),
* the disk cache store's `set` / `get` / `clear` operations and their
  event ordering,
* the generator multiplexer (`src/common/async-parallel-generator.ts`),
* the segmented parallel scanner (`src/dynamo-db/dynamo-db-client-base.ts`,
  `scanParallel` / `getApproximateItemsLimit`),
* the change-stream freshness oracle (`DynamoDBSyncManager.hasChanges`,
  `DynamoDBStreams.getStreamRecords`).

Machine integers are modelled as `Nat` / `Int`; buffers and strings are
byte lists; `JSON.stringify` / `JSON.parse` of batch payloads are
abstracted as an encode function `enc : α → List Nat` and a partial
decode `parse : List Nat → Option α` (the theorems take the roundtrip
property of the codec as a hypothesis); fallible code returns `Option`
or `Except`.  Cooperative-concurrency components are embedded as small
step transition systems driven by an explicit schedule, quantifying over
all schedules.
-/

set_option autoImplicit false

namespace NodeDbKraken

/-! ## § Binary frame codec

The disk cache stores each batch as `[4-byte little-endian length][payload]`
(`DYNAMODB_BUFFER_SEGMENT_SIZE = 4`).  `writeBinary` appends one frame per
batch; `readBinary` consumes the file in chunks, decoding complete frames
and buffering a partial trailing payload across chunk boundaries.
-/

/-- `Buffer.writeUInt32LE`: the four little-endian bytes of `n` (assumed
below `2^32`, as Node's `writeUInt32LE` rejects larger values). -/
def le32enc (n : Nat) : List Nat :=
  [n % 256, n / 256 % 256, n / 65536 % 256, n / 16777216 % 256]

/-- `Buffer.readUInt32LE` on four bytes. -/
def le32dec (b0 b1 b2 b3 : Nat) : Nat :=
  b0 + 256 * b1 + 65536 * b2 + 16777216 * b3

/-- One frame of the binary file: length prefix followed by the payload. -/
def frameOf (payload : List Nat) : List Nat :=
  le32enc payload.length ++ payload

/-- The byte stream produced by `DynamoDBLocalCacheStrategy.writeBinary`
for an ordered batch sequence: one frame per batch, in order.  `enc`
stands for `Buffer.from(JSON.stringify(batch))`. -/
def writeBinaryBytes {α : Type} (enc : α → List Nat) (bs : List α) : List Nat :=
  (bs.map (fun b => frameOf (enc b))).flatten

/-- Decoder state carried by `readBinary` across its chunk loop, plus the
batches yielded while processing one chunk.  `remaining` is the source's
`remainingBytes`, `pending` its `pendingData`, and `ok` records whether
the loop ever hit the `else break` arm that silently discards a chunk
tail shorter than a 4-byte length prefix. -/
structure DecState (α : Type) where
  remaining : Nat
  pending   : List Nat
  yields    : List α
  ok        : Bool
  deriving Repr, DecidableEq

/-- The inner `while (position < chunk.length)` loop of
`DynamoDBLocalCacheStrategy.readBinary`, processing a single chunk `s`
starting from decoder state `(remaining, pending)`.  `parse` stands for
`JSON.parse`; on parse failure the source appends the raw bytes to
`pendingData` and keeps going.  A chunk tail of fewer than 4 bytes while
expecting a length prefix is dropped by the source (`else break`); we
record that in `ok := false`.

Each loop iteration consumes at least one byte of the chunk, so the
recursion is bounded by the chunk length; `fuel` makes that structural
(`runChunk` below instantiates `fuel := s.length`, which
`runChunkF_fuel_irrel` shows is always enough). -/
def runChunkF {α : Type} (parse : List Nat → Option α) :
    Nat → Nat → List Nat → List Nat → DecState α
  | _, 0, pending, [] => ⟨0, pending, [], true⟩
  | _, r + 1, pending, [] => ⟨r + 1, pending, [], true⟩
  | fuel + 1, 0, pending, b0 :: b1 :: b2 :: b3 :: rest =>
      let len := le32dec b0 b1 b2 b3
      if rest.length < len then
        ⟨len - rest.length, pending ++ rest, [], true⟩
      else
        match parse (pending ++ rest.take len) with
        | some b =>
            let t := runChunkF parse fuel 0 [] (rest.drop len)
            ⟨t.remaining, t.pending, b :: t.yields, t.ok⟩
        | none =>
            runChunkF parse fuel 0 (pending ++ rest.take len) (rest.drop len)
  | _ + 1, 0, pending, _ => ⟨0, pending, [], false⟩
  | fuel + 1, r + 1, pending, s =>
      if s.length < r + 1 then
        ⟨r + 1 - s.length, pending ++ s, [], true⟩
      else
        match parse (pending ++ s.take (r + 1)) with
        | some b =>
            let t := runChunkF parse fuel 0 [] (s.drop (r + 1))
            ⟨t.remaining, t.pending, b :: t.yields, t.ok⟩
        | none =>
            runChunkF parse fuel 0 (pending ++ s.take (r + 1)) (s.drop (r + 1))
  | 0, r, pending, _ => ⟨r, pending, [], false⟩

/-- The chunk loop with its natural fuel. -/
def runChunk {α : Type} (parse : List Nat → Option α)
    (r : Nat) (pending s : List Nat) : DecState α :=
  runChunkF parse s.length r pending s

/-- The outer `for await (const chunk of readStream)` loop of
`readBinary`: fold the chunk decoder over the list of read chunks,
concatenating the yielded batches and conjoining the `ok` flags. -/
def readBinaryGo {α : Type} (parse : List Nat → Option α) :
    Nat → List Nat → List (List Nat) → List α × Bool
  | _, _, [] => ([], true)
  | r, p, c :: cs =>
      let st := runChunk parse r p c
      let rest := readBinaryGo parse st.remaining st.pending cs
      (st.yields ++ rest.1, st.ok && rest.2)

/-- `DynamoDBLocalCacheStrategy.readBinary`, as a function of how the
binary file happens to be delivered as read chunks: the decoded batch
sequence plus the flag saying no length prefix was ever split across a
chunk boundary. -/
def readBinary {α : Type} (parse : List Nat → Option α)
    (chunks : List (List Nat)) : List α × Bool :=
  readBinaryGo parse 0 [] chunks

/-! ### Roundtrip soundness of the frame codec -/

theorem le32dec_le32enc (n : Nat) (h : n < 4294967296) :
    le32dec (n % 256) (n / 256 % 256) (n / 65536 % 256) (n / 16777216 % 256) = n := by
  unfold le32dec
  omega

theorem append_split_le {β : Type} {l₁ l₂ l₃ l₄ : List β} (h : l₁ ++ l₂ = l₃ ++ l₄)
    (hl : l₁.length ≤ l₃.length) :
    l₁ = l₃.take l₁.length ∧ l₂ = l₃.drop l₁.length ++ l₄ := by
  constructor
  · have h1 := congrArg (List.take l₁.length) h
    simpa [List.take_append_eq_append_take, Nat.sub_eq_zero_of_le hl] using h1
  · have h2 := congrArg (List.drop l₁.length) h
    simpa [List.drop_append_eq_append_drop, Nat.sub_eq_zero_of_le hl] using h2

theorem append_split_ge {β : Type} {l₁ l₂ l₃ l₄ : List β} (h : l₁ ++ l₂ = l₃ ++ l₄)
    (hl : l₃.length ≤ l₁.length) :
    l₁.take l₃.length = l₃ ∧ l₁.drop l₃.length ++ l₂ = l₄ := by
  obtain ⟨h1, h2⟩ := append_split_le h.symm hl
  exact ⟨h1.symm, h2.symm⟩

theorem writeBinaryBytes_nil {α : Type} (enc : α → List Nat) :
    writeBinaryBytes enc [] = [] := rfl

theorem writeBinaryBytes_cons {α : Type} (enc : α → List Nat) (b : α) (bs : List α) :
    writeBinaryBytes enc (b :: bs) =
      le32enc (enc b).length ++ (enc b ++ writeBinaryBytes enc bs) := by
  simp [writeBinaryBytes, frameOf]

theorem writeBinaryBytes_cons_ne_nil {α : Type} (enc : α → List Nat) (b : α) (bs : List α) :
    writeBinaryBytes enc (b :: bs) ≠ [] := by
  simp [writeBinaryBytes_cons, le32enc]

/-- Invariant tying a decoder state `(r, p)` to the not-yet-delivered part
`stream` of the framed byte stream: either the decoder sits exactly at a
frame boundary, or it is inside the payload of the first remaining batch,
with `p` holding the already-seen payload prefix and `r` counting the
missing payload bytes. -/
def StreamRest {α : Type} (enc : α → List Nat) (r : Nat) (p : List Nat)
    (bs : List α) (stream : List Nat) : Prop :=
  (r = 0 ∧ p = [] ∧ stream = writeBinaryBytes enc bs)
  ∨ (∃ b bs' m, bs = b :: bs' ∧ m ≠ [] ∧ r = m.length ∧ enc b = p ++ m ∧
      stream = m ++ writeBinaryBytes enc bs')

/-- Core soundness of the chunk decoder: starting from a state that sits
correctly inside the framed stream, processing one chunk yields exactly
the batches whose frames it completes and moves the state to the rest of
the stream — provided no length prefix was split across the chunk end
(`ok = true`). -/
theorem runChunkF_sound {α : Type} (enc : α → List Nat) (parse : List Nat → Option α) :
    ∀ (fuel : Nat) (c : List Nat), c.length ≤ fuel →
      ∀ (r : Nat) (p rest : List Nat) (bs : List α),
        (∀ b ∈ bs, parse (enc b) = some b) →
        (∀ b ∈ bs, (enc b).length < 4294967296) →
        StreamRest enc r p bs (c ++ rest) →
        (runChunkF parse fuel r p c).ok = true →
        ∃ bs₂, (runChunkF parse fuel r p c).yields ++ bs₂ = bs ∧
          StreamRest enc (runChunkF parse fuel r p c).remaining
            (runChunkF parse fuel r p c).pending bs₂ rest := by
  intro fuel
  induction fuel with
  | zero =>
      intro c hc r p rest bs hparse hlen hsr hok
      have hc0 : c = [] := List.length_eq_zero.mp (Nat.le_zero.mp hc)
      subst hc0
      cases r with
      | zero => exact ⟨bs, by simp [runChunkF], by simpa [runChunkF] using hsr⟩
      | succ r' => exact ⟨bs, by simp [runChunkF], by simpa [runChunkF] using hsr⟩
  | succ fuel ih =>
      intro c hc r p rest bs hparse hlen hsr hok
      cases r with
      | zero =>
          have hb : p = [] ∧ c ++ rest = writeBinaryBytes enc bs := by
            rcases hsr with ⟨_, hp, hs⟩ | ⟨b, bs', m, hbs, hm, hr, henc, hs⟩
            · exact ⟨hp, hs⟩
            · exact absurd (List.length_eq_zero.mp hr.symm) hm
          obtain ⟨hp, hstream⟩ := hb
          subst hp
          match c, hc, hok, hstream with
          | [], hc, hok, hstream =>
              refine ⟨bs, by simp [runChunkF], ?_⟩
              simp only [runChunkF]
              exact Or.inl ⟨rfl, rfl, by simpa using hstream⟩
          | [x], hc, hok, hstream => simp [runChunkF] at hok
          | [x, y], hc, hok, hstream => simp [runChunkF] at hok
          | [x, y, z], hc, hok, hstream => simp [runChunkF] at hok
          | b0 :: b1 :: b2 :: b3 :: rest_c, hc, hok, hstream =>
              match bs, hparse, hlen, hstream with
              | [], _, _, hstream =>
                  exact absurd hstream (by simp [writeBinaryBytes_nil])
              | b :: bs', hparse, hlen, hstream =>
                  rw [writeBinaryBytes_cons] at hstream
                  simp only [le32enc, List.cons_append, List.nil_append,
                    List.cons.injEq] at hstream
                  obtain ⟨h0, h1, h2, h3, htail⟩ := hstream
                  subst h0; subst h1; subst h2; subst h3
                  have hL : le32dec ((enc b).length % 256) ((enc b).length / 256 % 256)
                      ((enc b).length / 65536 % 256) ((enc b).length / 16777216 % 256)
                        = (enc b).length :=
                    le32dec_le32enc _ (hlen b (by simp))
                  simp only [runChunkF, hL] at hok ⊢
                  by_cases hlt : rest_c.length < (enc b).length
                  · rw [if_pos hlt]
                    dsimp only
                    obtain ⟨hpre, hrest⟩ := append_split_le htail (Nat.le_of_lt hlt)
                    refine ⟨b :: bs', by simp, ?_⟩
                    refine Or.inr ⟨b, bs', (enc b).drop rest_c.length, rfl, ?_, ?_, ?_, ?_⟩
                    · intro hnil
                      rw [List.drop_eq_nil_iff] at hnil
                      omega
                    · rw [List.length_drop]
                    · conv_lhs => rw [← List.take_append_drop rest_c.length (enc b)]
                      rw [← hpre]
                      simp
                    · exact hrest
                  · rw [if_neg hlt] at hok ⊢
                    have hge : (enc b).length ≤ rest_c.length := Nat.le_of_not_lt hlt
                    obtain ⟨hpre, hrest⟩ := append_split_ge htail hge
                    have hparseb : parse ([] ++ rest_c.take (enc b).length) = some b := by
                      rw [List.nil_append, hpre]
                      exact hparse b (by simp)
                    rw [hparseb] at hok ⊢
                    dsimp only at hok ⊢
                    have hfc : (rest_c.drop (enc b).length).length ≤ fuel := by
                      simp only [List.length_drop]
                      simp only [List.length_cons] at hc
                      omega
                    obtain ⟨bs₂, hy, hsr'⟩ :=
                      ih (rest_c.drop (enc b).length) hfc 0 [] rest bs'
                        (fun x hx => hparse x (by simp [hx]))
                        (fun x hx => hlen x (by simp [hx]))
                        (Or.inl ⟨rfl, rfl, hrest⟩)
                        hok
                    exact ⟨bs₂, by simpa using hy, hsr'⟩
      | succ r' =>
          rcases hsr with ⟨hr0, _, _⟩ | ⟨b, bs', m, hbs, hm, hr, henc, hs⟩
          · exact absurd hr0 (Nat.succ_ne_zero r')
          subst hbs
          match c, hc, hok, hs with
          | [], hc, hok, hs =>
              refine ⟨b :: bs', by simp [runChunkF], ?_⟩
              simp only [runChunkF]
              exact Or.inr ⟨b, bs', m, rfl, hm, hr, henc, by simpa using hs⟩
          | x :: c', hc, hok, hs =>
              simp only [runChunkF] at hok ⊢
              by_cases hlt : (x :: c').length < r' + 1
              · rw [if_pos hlt]
                dsimp only
                have hlm : (x :: c').length ≤ m.length := by omega
                obtain ⟨hpre, hrest⟩ := append_split_le hs hlm
                refine ⟨b :: bs', by simp, ?_⟩
                refine Or.inr ⟨b, bs', m.drop (x :: c').length, rfl, ?_, ?_, ?_, ?_⟩
                · intro hnil
                  rw [List.drop_eq_nil_iff] at hnil
                  omega
                · rw [List.length_drop]
                  omega
                · rw [henc]
                  conv_lhs => rw [← List.take_append_drop (x :: c').length m]
                  rw [← hpre]
                  simp
                · exact hrest
              · rw [if_neg hlt] at hok ⊢
                have hge : m.length ≤ (x :: c').length := by omega
                obtain ⟨hpre, hrest⟩ := append_split_ge hs hge
                have hparseb : parse (p ++ (x :: c').take (r' + 1)) = some b := by
                  rw [hr, hpre, ← henc]
                  exact hparse b (by simp)
                rw [hr] at hparseb hok ⊢
                rw [hparseb] at hok ⊢
                dsimp only at hok ⊢
                have hfc : ((x :: c').drop m.length).length ≤ fuel := by
                  rw [List.length_drop]
                  simp only [List.length_cons] at hc ⊢
                  omega
                obtain ⟨bs₂, hy, hsr'⟩ :=
                  ih ((x :: c').drop m.length) hfc 0 [] rest bs'
                    (fun y hy => hparse y (by simp [hy]))
                    (fun y hy => hlen y (by simp [hy]))
                    (Or.inl ⟨rfl, rfl, hrest⟩)
                    hok
                exact ⟨bs₂, by simpa using hy, hsr'⟩

theorem writeBinaryBytes_eq_nil {α : Type} {enc : α → List Nat} {bs : List α}
    (h : writeBinaryBytes enc bs = []) : bs = [] := by
  cases bs with
  | nil => rfl
  | cons b bs' => exact absurd h (writeBinaryBytes_cons_ne_nil enc b bs')

theorem StreamRest_nil {α : Type} {enc : α → List Nat} {r : Nat} {p : List Nat}
    {bs : List α} (h : StreamRest enc r p bs []) : bs = [] := by
  rcases h with ⟨_, _, hs⟩ | ⟨b, bs', m, _, hm, _, _, hs⟩
  · exact writeBinaryBytes_eq_nil hs.symm
  · have : m = [] := (List.append_eq_nil.mp hs.symm).1
    exact absurd this hm

theorem readBinaryGo_sound {α : Type} (enc : α → List Nat) (parse : List Nat → Option α) :
    ∀ (chunks : List (List Nat)) (r : Nat) (p : List Nat) (bs : List α),
      (∀ b ∈ bs, parse (enc b) = some b) →
      (∀ b ∈ bs, (enc b).length < 4294967296) →
      StreamRest enc r p bs chunks.flatten →
      (readBinaryGo parse r p chunks).2 = true →
      (readBinaryGo parse r p chunks).1 = bs := by
  intro chunks
  induction chunks with
  | nil =>
      intro r p bs _ _ hsr _
      simp only [List.flatten_nil] at hsr
      simp [readBinaryGo, StreamRest_nil hsr]
  | cons c cs ih =>
      intro r p bs hparse hlen hsr hok
      rw [List.flatten_cons] at hsr
      have hsound := runChunkF_sound enc parse c.length c (Nat.le_refl _) r p cs.flatten bs
        hparse hlen hsr
      simp only [readBinaryGo, runChunk] at hok ⊢
      rw [Bool.and_eq_true] at hok
      obtain ⟨hok1, hok2⟩ := hok
      obtain ⟨bs₂, hy, hsr2⟩ := hsound hok1
      rw [ih _ _ bs₂
        (fun b hb => hparse b (by rw [← hy]; exact List.mem_append_right _ hb))
        (fun b hb => hlen b (by rw [← hy]; exact List.mem_append_right _ hb)) hsr2 hok2]
      exact hy

/-! ## § Disk cache store: data model

`IStagedCacheData` from `dynamo-db-defs.ts`.  Strings (partition/sort
keys, sequence numbers, `lastEvaluatedKey`) are modelled as `Nat`
identifiers; timestamps are epoch milliseconds.
-/

/-- `SequenceNumberRange` from the streams SDK. -/
structure SequenceNumberRange where
  StartingSequenceNumber : Option Nat
  EndingSequenceNumber   : Option Nat
  deriving Repr, DecidableEq

/-- `IStagedCacheData.metadata`. -/
structure CacheMetadata where
  tableSize        : Nat
  itemCount        : Nat
  lastEvaluatedKey : Option Nat
  sequenceRange    : Option SequenceNumberRange
  timestamp        : Int
  deriving Repr, DecidableEq

/-- `IStagedCacheData.schema`. -/
structure CacheSchema where
  partitionKey : Nat
  sortKey      : Option Nat
  deriving Repr, DecidableEq

/-- `IStagedCacheData`, with the lazy `extract` realised as the list of
batches it would yield. -/
structure StagedCacheData (α : Type) where
  metadata : CacheMetadata
  schema   : CacheSchema
  extract  : List α
  deriving Repr, DecidableEq

/-- The two artifacts the store keeps per cache key: `<key>.json` sidecar
and `<key>.bin` framed binary payload. -/
structure CacheFile (α : Type) where
  sidecar : Option (CacheMetadata × CacheSchema)
  binary  : Option (List Nat)
  deriving Repr, DecidableEq

/-- Net file-system effect of `DynamoDBLocalCacheStrategy.set` on the
key's artifacts, once the upstream batch sequence has been fully
consumed: the binary file holds the frame stream, and the sidecar holds
the staged value's metadata and schema (via `JSON.stringify`, which drops
the non-serialisable `extract` generator). -/
def cacheSet {α : Type} (enc : α → List Nat) (value : StagedCacheData α)
    (batches : List α) : CacheFile α :=
  { sidecar := some (value.metadata, value.schema)
    binary  := some (writeBinaryBytes enc batches) }

/-- `DynamoDBLocalCacheStrategy.getInternal`: parse the sidecar (missing
sidecar ⇒ `null`) and attach the lazy binary decode, which consumes the
binary file as the read stream delivers it in `chunks`. -/
def cacheGet {α : Type} (parse : List Nat → Option α) (fs : CacheFile α)
    (chunks : List (List Nat)) : Option (StagedCacheData α) :=
  match fs.sidecar with
  | none => none
  | some sc =>
      some { metadata := sc.1, schema := sc.2, extract := (readBinary parse chunks).1 }

/-- Concrete single-byte payload codec used to exercise the frame layer
on closed inputs (a stand-in for `JSON.stringify`/`JSON.parse` of a
batch). -/
def encNat (n : Nat) : List Nat := [n]

/-- Partial inverse of `encNat`. -/
def parseNat : List Nat → Option Nat
  | [n] => some n
  | _ => none

/-- A concrete staged value reused by the closed-input theorems. -/
def sampleStaged : StagedCacheData Nat :=
  { metadata := { tableSize := 1000, itemCount := 2, lastEvaluatedKey := none
                  sequenceRange := some ⟨some 100, none⟩, timestamp := 1700000000000 }
    schema   := { partitionKey := 1, sortKey := none }
    extract  := [] }

/-- C1 (amended): writing a staged value and an ordered batch sequence via
`set`, then reading it back via `get`, returns the identical metadata and
schema and the identical ordered batch sequence through the lazy extract,
for EVERY way the binary file is split into read chunks in which no
4-byte length prefix straddles a chunk boundary (payload bytes may
straddle freely; `(readBinary parse chunks).2 = true` states exactly that
the decoder never hit its short-prefix discard arm).  The claim's
original unconditional form is refuted by
`C1_counterexample_prefix_straddle`. -/
theorem C1_cache_roundtrip {α : Type} (enc : α → List Nat) (parse : List Nat → Option α)
    (value : StagedCacheData α) (batches : List α) (chunks : List (List Nat))
    (hparse : ∀ b ∈ batches, parse (enc b) = some b)
    (hlen : ∀ b ∈ batches, (enc b).length < 4294967296)
    (hchunks : chunks.flatten = writeBinaryBytes enc batches)
    (hok : (readBinary parse chunks).2 = true) :
    cacheGet parse (cacheSet enc value batches) chunks =
      some { metadata := value.metadata, schema := value.schema, extract := batches } := by
  have hdec : (readBinary parse chunks).1 = batches := by
    apply readBinaryGo_sound enc parse chunks 0 [] batches hparse hlen
    · rw [hchunks]
      exact Or.inl ⟨rfl, rfl, rfl⟩
    · exact hok
  simp [cacheGet, cacheSet, hdec]

/-- C1 witness: a concrete roundtrip through `set`/`get` with two batches
and a chunking in which a frame's payload arrives in a chunk of its own,
separated from its length prefix. -/
theorem C1_cache_roundtrip_witness :
    cacheGet parseNat (cacheSet encNat sampleStaged [5, 7]) [[1, 0, 0, 0], [5], [1, 0, 0, 0, 7]] =
      some { metadata := sampleStaged.metadata, schema := sampleStaged.schema
             extract := [5, 7] } :=
  C1_cache_roundtrip encNat parseNat sampleStaged [5, 7] [[1, 0, 0, 0], [5], [1, 0, 0, 0, 7]]
    (by decide) (by decide) (by decide) (by decide)

/-- C1 counterexample: the same byte stream `set` produces for the single
batch `5`, delivered in two read chunks that split the 4-byte length
prefix (`[1,0] / [0,0,5]`), decodes to the empty batch list — not to
`[5]` — because `readBinary`'s `else break` discards a chunk tail shorter
than a length prefix.  This refutes the claim's "regardless of how the
binary file is split into read chunks (including ... length prefixes
straddling chunk boundaries)". -/
theorem C1_counterexample_prefix_straddle :
    (∀ b : Nat, parseNat (encNat b) = some b) ∧
    [[1, 0], [0, 0, 5]].flatten = writeBinaryBytes encNat [5] ∧
    (readBinary parseNat [[1, 0], [0, 0, 5]]).1 = [] ∧
    cacheGet parseNat (cacheSet encNat sampleStaged [5]) [[1, 0], [0, 0, 5]] ≠
      some { metadata := sampleStaged.metadata, schema := sampleStaged.schema
             extract := [5] } :=
  ⟨fun b => rfl, rfl, rfl, by decide⟩

/-! ## § Disk cache store: `set` as an event trace

`DynamoDBLocalCacheStrategy.set` runs strictly sequentially:
`await clear(storage)` (unlink sidecar, then unlink binary, each with
errors swallowed), then `writeBinary` (stream the frames, then
`writeStream.end`), then — only on success — `fs.writeFile` of the JSON
sidecar; a trailing `.catch` logs any error and resolves anyway.  We
embed that execution as the ordered list of file-system events it
performs.  The upstream generator is a list of pulls, each either a
batch or a thrown error.
-/

/-- File-system events performed by the store for one cache key. -/
inductive CacheEvent : Type where
  | unlinkSidecar
  | unlinkBinary
  | binWrite (bytes : List Nat)
  | binEnd
  | sidecarWrite
  deriving Repr, DecidableEq

/-- The event trace of `writeBinary`'s promise body, and whether it
resolved (`true`) or rejected because pulling the generator threw
(`false`, after `writeStream.destroy()`, without `binEnd`). -/
def writeBinaryTrace {α : Type} (enc : α → List Nat) :
    List (Except Unit α) → List CacheEvent × Bool
  | [] => ([CacheEvent.binEnd], true)
  | Except.ok b :: rest =>
      let t := writeBinaryTrace enc rest
      (CacheEvent.binWrite (le32enc (enc b).length) ::
        CacheEvent.binWrite (enc b) :: t.1, t.2)
  | Except.error _ :: _ => ([], false)

/-- The full event trace of `set`: clear both artifacts, stream the
binary file, and write the sidecar only if the binary stream completed. -/
def setTrace {α : Type} (enc : α → List Nat) (gen : List (Except Unit α)) :
    List CacheEvent :=
  let t := writeBinaryTrace enc gen
  CacheEvent.unlinkSidecar :: CacheEvent.unlinkBinary ::
    (t.1 ++ if t.2 then [CacheEvent.sidecarWrite] else [])

/-- The outcome of the promise returned by `set`: the `.then` chain's
result passed through the trailing `.catch`, which swallows any rejection
from consuming the upstream sequence or writing the binary file. -/
def setResult {α : Type} (enc : α → List Nat) (gen : List (Except Unit α)) :
    Except Unit Unit :=
  match (writeBinaryTrace enc gen).2 with
  | true => Except.ok ()
  | false => (Except.error () : Except Unit Unit).tryCatch (fun _ => Except.ok ())

theorem writeBinaryTrace_mem {α : Type} (enc : α → List Nat) :
    ∀ (gen : List (Except Unit α)) (e : CacheEvent),
      e ∈ (writeBinaryTrace enc gen).1 →
      (∃ bytes, e = CacheEvent.binWrite bytes) ∨ e = CacheEvent.binEnd := by
  intro gen
  induction gen with
  | nil =>
      intro e he
      simp only [writeBinaryTrace, List.mem_singleton] at he
      exact Or.inr he
  | cons x rest ih =>
      intro e he
      match x with
      | Except.ok b =>
          simp only [writeBinaryTrace, List.mem_cons] at he
          rcases he with h | h | h
          · exact Or.inl ⟨_, h⟩
          · exact Or.inl ⟨_, h⟩
          · exact ih e h
      | Except.error u => simp [writeBinaryTrace] at he

theorem writeBinaryTrace_binEnd_last {α : Type} (enc : α → List Nat) :
    ∀ (gen : List (Except Unit α)), (writeBinaryTrace enc gen).2 = true →
      CacheEvent.binEnd ∈ (writeBinaryTrace enc gen).1 := by
  intro gen
  induction gen with
  | nil => intro _; simp [writeBinaryTrace]
  | cons x rest ih =>
      intro h
      match x with
      | Except.ok b =>
          simp only [writeBinaryTrace] at h ⊢
          simp only [List.mem_cons]
          exact Or.inr (Or.inr (ih h))
      | Except.error u => simp [writeBinaryTrace] at h

/-- Splitting a list at a unique distinguished element. -/
theorem append_singleton_split {β : Type} {ys pre post : List β} {a : β}
    (h : ys ++ [a] = pre ++ a :: post) (ha : a ∉ ys) : pre = ys ∧ post = [] := by
  induction ys generalizing pre with
  | nil =>
      cases pre with
      | nil => simpa using h
      | cons x pre' =>
          simp only [List.nil_append, List.cons_append, List.cons.injEq] at h
          obtain ⟨rfl, h2⟩ := h
          have hlen := congrArg List.length h2
          simp only [List.length_nil, List.length_append, List.length_cons] at hlen
          omega
  | cons y ys ih =>
      cases pre with
      | nil =>
          simp only [List.cons_append, List.nil_append, List.cons.injEq] at h
          exact absurd h.1.symm (fun hya => ha (hya ▸ List.mem_cons_self y ys))
      | cons x pre' =>
          simp only [List.cons_append, List.cons.injEq] at h
          obtain ⟨rfl, h2⟩ := h
          obtain ⟨h3, h4⟩ := ih h2 (fun hm => ha (List.mem_cons_of_mem _ hm))
          exact ⟨by rw [h3], h4⟩

/-- C7 (confirmed): for every `set` execution — for every staged value,
batch codec and upstream pull sequence, including ones that throw — the
trace starts by deleting the sidecar and then the binary artifact before
any write event, and if the sidecar is (re)written at all, every binary
write and the binary end happen strictly before it and nothing follows
it.  In particular no point of the trace has a sidecar written while the
binary payload is still being written. -/
theorem C7_set_ordering {α : Type} (enc : α → List Nat) (gen : List (Except Unit α)) :
    (∃ rest, setTrace enc gen =
        CacheEvent.unlinkSidecar :: CacheEvent.unlinkBinary :: rest ∧
        CacheEvent.unlinkSidecar ∉ rest ∧ CacheEvent.unlinkBinary ∉ rest) ∧
    (∀ pre post, setTrace enc gen = pre ++ CacheEvent.sidecarWrite :: post →
        CacheEvent.binEnd ∈ pre ∧ post = []) := by
  constructor
  · refine ⟨_, rfl, ?_, ?_⟩
    · intro hmem
      rcases List.mem_append.mp hmem with h | h
      · rcases writeBinaryTrace_mem enc gen _ h with ⟨_, h'⟩ | h' <;> simp at h'
      · rcases (writeBinaryTrace enc gen).2 <;> simp at h
    · intro hmem
      rcases List.mem_append.mp hmem with h | h
      · rcases writeBinaryTrace_mem enc gen _ h with ⟨_, h'⟩ | h' <;> simp at h'
      · rcases (writeBinaryTrace enc gen).2 <;> simp at h
  · intro pre post hsplit
    by_cases hok : (writeBinaryTrace enc gen).2 = true
    · have hform : setTrace enc gen =
          (CacheEvent.unlinkSidecar :: CacheEvent.unlinkBinary ::
            (writeBinaryTrace enc gen).1) ++ [CacheEvent.sidecarWrite] := by
        simp [setTrace, hok]
      rw [hform] at hsplit
      have hnotmem : CacheEvent.sidecarWrite ∉
          CacheEvent.unlinkSidecar :: CacheEvent.unlinkBinary ::
            (writeBinaryTrace enc gen).1 := by
        intro hmem
        simp only [List.mem_cons] at hmem
        rcases hmem with h | h | hmem
        · simp at h
        · simp at h
        · rcases writeBinaryTrace_mem enc gen _ hmem with ⟨_, h'⟩ | h' <;> simp at h'
      obtain ⟨hpre, hpost⟩ := append_singleton_split hsplit hnotmem
      refine ⟨?_, hpost⟩
      rw [hpre]
      exact List.mem_cons_of_mem _ (List.mem_cons_of_mem _
        (writeBinaryTrace_binEnd_last enc gen hok))
    · have hform : setTrace enc gen =
          CacheEvent.unlinkSidecar :: CacheEvent.unlinkBinary ::
            (writeBinaryTrace enc gen).1 := by
        simp [setTrace, Bool.eq_false_iff.mpr hok]
      exfalso
      have : CacheEvent.sidecarWrite ∈ setTrace enc gen := by
        rw [hsplit]
        simp
      rw [hform] at this
      simp only [List.mem_cons] at this
      rcases this with h | h | hmem
      · simp at h
      · simp at h
      · rcases writeBinaryTrace_mem enc gen _ hmem with ⟨_, h'⟩ | h' <;> simp at h'

/-- C7 witness: the ordering theorem applied to a concrete two-batch
`set` whose trace is computed outright. -/
theorem C7_set_ordering_witness :
    (∃ rest, setTrace encNat [Except.ok 5, Except.ok 7] =
        CacheEvent.unlinkSidecar :: CacheEvent.unlinkBinary :: rest ∧
        CacheEvent.unlinkSidecar ∉ rest ∧ CacheEvent.unlinkBinary ∉ rest) ∧
    (∀ pre post, setTrace encNat [Except.ok 5, Except.ok 7] =
        pre ++ CacheEvent.sidecarWrite :: post →
        CacheEvent.binEnd ∈ pre ∧ post = []) :=
  C7_set_ordering encNat [Except.ok 5, Except.ok 7]

/-- C10 (confirmed): the promise returned by `set` always resolves: a
rejection of the binary-write promise (an error thrown while pulling the
upstream sequence) is routed through the trailing `.catch`, which only
logs, so `set`'s caller never observes the failure.  (When the write
fails, the sidecar is also never written: see `C7_set_ordering`.) -/
theorem C10_set_always_resolves {α : Type} (enc : α → List Nat)
    (gen : List (Except Unit α)) :
    setResult enc gen = Except.ok () := by
  unfold setResult
  rcases (writeBinaryTrace enc gen).2 <;> rfl

/-! ## § Generator multiplexer (`AsyncParallelGenerator`)

`async-parallel-generator.ts` fans one producer sequence out to
`numConsumers` lockstep consumers.  We embed it as a small-step
transition system over explicit schedules:

* `producer` runs the next enabled step of `generatorLoop` — the
  `for await` pull of one item (which happens **before** any barrier
  wait), the wait-until-all-registered barrier (then resolving every
  waiting consumer with the value), and the wait-until-all-acknowledged
  barrier;
* `callNext i` is consumer `i` invoking `next()` (early-return on
  `done`, else registering its resolver in `waitingConsumers`);
* `resume i` is consumer `i`'s continuation after its promise resolves
  (running `consumedCount++` and handing the value to the consumer, or
  finishing on `undefined`);
* `close` is the controller's `close()`: it sets `done := true` and
  **clears** `waitingConsumers` without calling the resolvers;
* `start` is the controller's idempotent `start()`.

Items are modelled as `Nat`; a consumer's `received` list records the
values its `next()` calls have returned.  `AsyncGenerator.return` (early
consumer termination) is not exercised by the claims and is not
modelled. -/

/-- State of one consumer slot. -/
inductive ConsumerState : Type where
  | outside  (received : List Nat)
  | pending  (received : List Nat)
  | resolved (v : Option Nat) (received : List Nat)
  | finished (received : List Nat)
  deriving Repr, DecidableEq

/-- The values a consumer has received so far. -/
def receivedOf : ConsumerState → List Nat
  | ConsumerState.outside r => r
  | ConsumerState.pending r => r
  | ConsumerState.resolved _ r => r
  | ConsumerState.finished r => r

/-- Program counter of `generatorLoop`. -/
inductive ProdPhase : Type where
  | notStarted
  | pull
  | barrier (v : Nat)
  | ack (v : Nat)
  | finished
  deriving Repr, DecidableEq

structure MuxState where
  items     : List Nat
  phase     : ProdPhase
  done      : Bool
  consumed  : Nat
  active    : Nat
  waiting   : List Nat
  consumers : List ConsumerState
  started   : Bool
  deriving Repr, DecidableEq

inductive MuxLabel : Type where
  | start
  | close
  | producer
  | callNext (i : Nat)
  | resume (i : Nat)
  deriving Repr, DecidableEq

/-- Calling one registered resolver with `v`: the pending promise it
belongs to becomes resolved (a resolver of a non-pending slot cannot be
in the set; identity otherwise). -/
def resolveOne (v : Option Nat) : ConsumerState → ConsumerState
  | ConsumerState.pending r => ConsumerState.resolved v r
  | c => c

/-- `waitingConsumers.forEach(resolver => resolver(v))`: resolve the
pending promise of every consumer whose index is in `ws`. -/
def resolveAllGo (v : Option Nat) (ws : List Nat) :
    Nat → List ConsumerState → List ConsumerState
  | _, [] => []
  | i, c :: cs =>
      (if i ∈ ws then resolveOne v c else c) :: resolveAllGo v ws (i + 1) cs

/-- One scheduler step of the multiplexer. -/
def muxStep (s : MuxState) (l : MuxLabel) : MuxState :=
  match l with
  | MuxLabel.start =>
      if s.started then s else { s with started := true, phase := ProdPhase.pull }
  | MuxLabel.close => { s with done := true, waiting := [] }
  | MuxLabel.producer =>
      match s.phase with
      | ProdPhase.notStarted => s
      | ProdPhase.finished => s
      | ProdPhase.pull =>
          match s.items with
          | [] =>
              { s with phase := ProdPhase.finished, done := true,
                       consumers := resolveAllGo none s.waiting 0 s.consumers,
                       waiting := [] }
          | v :: rest =>
              { s with items := rest, consumed := 0, phase := ProdPhase.barrier v }
      | ProdPhase.barrier v =>
          if s.active ≤ s.waiting.length ∨ s.done then
            { s with consumers := resolveAllGo (some v) s.waiting 0 s.consumers,
                     waiting := [], phase := ProdPhase.ack v }
          else s
      | ProdPhase.ack _ =>
          if s.active ≤ s.consumed ∨ s.done then
            { s with phase := ProdPhase.pull }
          else s
  | MuxLabel.callNext i =>
      match s.consumers[i]? with
      | some (ConsumerState.outside r) =>
          if s.done then { s with consumers := s.consumers.set i (ConsumerState.finished r) }
          else { s with consumers := s.consumers.set i (ConsumerState.pending r),
                        waiting := s.waiting ++ [i] }
      | _ => s
  | MuxLabel.resume i =>
      match s.consumers[i]? with
      | some (ConsumerState.resolved (some v) r) =>
          { s with consumers := s.consumers.set i (ConsumerState.outside (r ++ [v])),
                   consumed := s.consumed + 1 }
      | some (ConsumerState.resolved none r) =>
          { s with consumers := s.consumers.set i (ConsumerState.finished r) }
      | _ => s

/-- `AsyncParallelGenerator(generator, numConsumers)` before anything
runs. -/
def muxInit (k : Nat) (items : List Nat) : MuxState :=
  { items := items, phase := ProdPhase.notStarted, done := false, consumed := 0,
    active := k, waiting := [], consumers := List.replicate k (ConsumerState.outside []),
    started := false }

def muxRun (s : MuxState) : List MuxLabel → MuxState
  | [] => s
  | l :: ls => muxRun (muxStep s l) ls

theorem muxRun_cons (s : MuxState) (l : MuxLabel) (ls : List MuxLabel) :
    muxRun s (l :: ls) = muxRun (muxStep s l) ls := rfl

/-! ### C4: `close()` clears the waiting set without resolving it -/

theorem resolveAllGo_getElem?_not_mem (v : Option Nat) (ws : List Nat) :
    ∀ (cs : List ConsumerState) (base j : Nat), (base + j) ∉ ws →
      (resolveAllGo v ws base cs)[j]? = cs[j]? := by
  intro cs
  induction cs with
  | nil => intro base j _; rfl
  | cons c cs ih =>
      intro base j hj
      cases j with
      | zero =>
          simp only [resolveAllGo, List.getElem?_cons_zero]
          rw [if_neg (by simpa using hj)]
      | succ j' =>
          simp only [resolveAllGo, List.getElem?_cons_succ]
          exact ih (base + 1) j'
            ((by omega : base + (j' + 1) = base + 1 + j') ▸ hj)

/-- The configuration reached by: one consumer (K = 1) calls `next()`
(registering its pending pull), then the controller calls `close()`. -/
def muxAfterClose : MuxState :=
  muxRun (muxInit 1 [3]) [MuxLabel.callNext 0, MuxLabel.close]

/-- C4 (code bug): after `close()`, a consumer whose `next()` was
pending stays pending **forever**: under every continuation of the
schedule its promise is never resolved, because `close()` removed its
resolver from `waitingConsumers` without invoking it (unlike the
generator loop's `finally`, which resolves each waiter with
`undefined`).  The claim — close releases every pending pull with
`done = true` — is what the spec demands; the code violates it. -/
theorem C4_close_leaves_pending_pull_unresolved :
    ∀ (labels : List MuxLabel),
      (muxRun muxAfterClose labels).consumers[0]? =
        some (ConsumerState.pending []) := by
  have hstart : muxAfterClose.consumers[0]? = some (ConsumerState.pending []) ∧
      0 ∉ muxAfterClose.waiting := by
    constructor <;> decide
  suffices H : ∀ (labels : List MuxLabel) (s : MuxState),
      s.consumers[0]? = some (ConsumerState.pending []) → 0 ∉ s.waiting →
      (muxRun s labels).consumers[0]? = some (ConsumerState.pending []) by
    intro labels
    exact H labels muxAfterClose hstart.1 hstart.2
  intro labels
  induction labels with
  | nil => intro s hc _; exact hc
  | cons l ls ih =>
      intro s hc hw
      rw [muxRun_cons]
      have hstep : (muxStep s l).consumers[0]? = some (ConsumerState.pending []) ∧
          0 ∉ (muxStep s l).waiting := by
        match l with
        | MuxLabel.start =>
            by_cases hs : s.started <;> simp [muxStep, hs, hc, hw]
        | MuxLabel.close => simp [muxStep, hc]
        | MuxLabel.producer =>
            match hp : s.phase with
            | ProdPhase.notStarted => simpa [muxStep, hp] using ⟨hc, hw⟩
            | ProdPhase.finished => simpa [muxStep, hp] using ⟨hc, hw⟩
            | ProdPhase.pull =>
                match hi : s.items with
                | [] =>
                    refine ⟨?_, by simp [muxStep, hp, hi]⟩
                    simp only [muxStep, hp, hi]
                    rw [show (0 : Nat) = 0 + 0 from rfl] at hw ⊢
                    rw [resolveAllGo_getElem?_not_mem none s.waiting s.consumers 0 0 hw]
                    exact hc
                | v :: rest => simpa [muxStep, hp, hi] using ⟨hc, hw⟩
            | ProdPhase.barrier v =>
                by_cases hcond : s.active ≤ s.waiting.length ∨ s.done = true
                · refine ⟨?_, by simp [muxStep, hp, hcond]⟩
                  simp only [muxStep, hp, if_pos hcond]
                  rw [show (0 : Nat) = 0 + 0 from rfl] at hw ⊢
                  rw [resolveAllGo_getElem?_not_mem (some v) s.waiting s.consumers 0 0 hw]
                  exact hc
                · simpa [muxStep, hp, hcond] using ⟨hc, hw⟩
            | ProdPhase.ack v =>
                by_cases hcond : s.active ≤ s.consumed ∨ s.done = true <;>
                  simpa [muxStep, hp, hcond] using ⟨hc, hw⟩
        | MuxLabel.callNext i =>
            match hci : s.consumers[i]? with
            | some (ConsumerState.outside r) =>
                have hne : i ≠ 0 := by
                  intro h
                  rw [h, hc] at hci
                  exact absurd hci (by simp)
                by_cases hd : s.done = true
                · refine ⟨?_, by simp [muxStep, hci, hd, hw]⟩
                  simp only [muxStep, hci, if_pos hd]
                  rw [List.getElem?_set_ne hne]
                  exact hc
                · refine ⟨?_, ?_⟩
                  · simp only [muxStep, hci, if_neg hd]
                    rw [List.getElem?_set_ne hne]
                    exact hc
                  · simp only [muxStep, hci, if_neg hd]
                    simp only [List.mem_append, List.mem_singleton]
                    rintro (h | h)
                    · exact hw h
                    · exact hne h.symm
            | some (ConsumerState.pending r) => simpa [muxStep, hci] using ⟨hc, hw⟩
            | some (ConsumerState.resolved v r) => simpa [muxStep, hci] using ⟨hc, hw⟩
            | some (ConsumerState.finished r) => simpa [muxStep, hci] using ⟨hc, hw⟩
            | none => simpa [muxStep, hci] using ⟨hc, hw⟩
        | MuxLabel.resume i =>
            match hci : s.consumers[i]? with
            | some (ConsumerState.resolved (some v) r) =>
                have hne : i ≠ 0 := by
                  intro h
                  rw [h, hc] at hci
                  exact absurd hci (by simp)
                refine ⟨?_, by simpa [muxStep, hci] using hw⟩
                simp only [muxStep, hci]
                rw [List.getElem?_set_ne hne]
                exact hc
            | some (ConsumerState.resolved none r) =>
                have hne : i ≠ 0 := by
                  intro h
                  rw [h, hc] at hci
                  exact absurd hci (by simp)
                refine ⟨?_, by simpa [muxStep, hci] using hw⟩
                simp only [muxStep, hci]
                rw [List.getElem?_set_ne hne]
                exact hc
            | some (ConsumerState.outside r) => simpa [muxStep, hci] using ⟨hc, hw⟩
            | some (ConsumerState.pending r) => simpa [muxStep, hci] using ⟨hc, hw⟩
            | some (ConsumerState.finished r) => simpa [muxStep, hci] using ⟨hc, hw⟩
            | none => simpa [muxStep, hci] using ⟨hc, hw⟩
      exact ih _ hstep.1 hstep.2

/-- C4 evidence at the failing input itself: in `muxAfterClose` the lone
consumer is pending, `done` is set, and the waiting set is empty — the
resolver is gone without having been called. -/
theorem C4_failing_input_state :
    muxAfterClose.consumers[0]? = some (ConsumerState.pending []) ∧
      muxAfterClose.done = true ∧ muxAfterClose.waiting = [] := by
  refine ⟨?_, ?_, ?_⟩ <;> decide

/-- C6 counterexample: started with two consumers over the sequence
`[7, 8]`, a single producer step pulls `7` from the generator (the
`for await` pull precedes the barrier wait) while **zero** consumers
have registered a pending pull — refuting "the producer sequence is
pulled for an item only after all K consumer slots have registered a
pending pull for that item". -/
theorem C6_counterexample_eager_first_pull :
    (muxRun (muxInit 2 [7, 8]) [MuxLabel.start, MuxLabel.producer]).items = [8] ∧
    (muxRun (muxInit 2 [7, 8]) [MuxLabel.start, MuxLabel.producer]).phase =
      ProdPhase.barrier 7 ∧
    (muxRun (muxInit 2 [7, 8]) [MuxLabel.start, MuxLabel.producer]).waiting = [] ∧
    (muxRun (muxInit 2 [7, 8]) [MuxLabel.start, MuxLabel.producer]).consumers =
      [ConsumerState.outside [], ConsumerState.outside []] := by
  refine ⟨?_, ?_, ?_, ?_⟩ <;> decide

/-! ### C6: the barrier protocol invariant -/

def isResolved : ConsumerState → Bool
  | ConsumerState.resolved _ _ => true
  | _ => false

theorem resolveAllGo_length (v : Option Nat) (ws : List Nat) :
    ∀ (cs : List ConsumerState) (base : Nat),
      (resolveAllGo v ws base cs).length = cs.length := by
  intro cs
  induction cs with
  | nil => intro base; rfl
  | cons c cs ih => intro base; simp [resolveAllGo, ih]

theorem resolveAllGo_getElem? (v : Option Nat) (ws : List Nat) :
    ∀ (cs : List ConsumerState) (base j : Nat),
      (resolveAllGo v ws base cs)[j]? =
        (cs[j]?).map (fun c => if (base + j) ∈ ws then resolveOne v c else c) := by
  intro cs
  induction cs with
  | nil => intro base j; rfl
  | cons c cs ih =>
      intro base j
      cases j with
      | zero => simp [resolveAllGo]
      | succ j' =>
          simp only [resolveAllGo, List.getElem?_cons_succ]
          rw [ih (base + 1) j']
          have : base + 1 + j' = base + (j' + 1) := by omega
          rw [this]

theorem countP_set_getElem? (p : ConsumerState → Bool) :
    ∀ (cs : List ConsumerState) (i : Nat) (c x : ConsumerState), cs[i]? = some c →
      (cs.set i x).countP p + (if p c then 1 else 0) =
        cs.countP p + (if p x then 1 else 0) := by
  intro cs
  induction cs with
  | nil => intro i c x h; simp at h
  | cons c₀ cs ih =>
      intro i c x h
      cases i with
      | zero =>
          simp only [List.getElem?_cons_zero, Option.some.injEq] at h
          subst h
          simp only [List.set_cons_zero, List.countP_cons]
          omega
      | succ i' =>
          simp only [List.getElem?_cons_succ] at h
          simp only [List.set_cons_succ, List.countP_cons]
          have := ih i' c x h
          omega

theorem take_succ_of_drop_cons {l : List Nat} :
    ∀ {n : Nat} {v : Nat} {rest : List Nat}, l.drop n = v :: rest →
      l.take (n + 1) = l.take n ++ [v] ∧ l.drop (n + 1) = rest := by
  induction l with
  | nil => intro n v rest h; rw [List.drop_nil] at h; exact absurd h (by simp)
  | cons x l ih =>
      intro n v rest h
      cases n with
      | zero =>
          rw [List.drop_zero] at h
          cases h
          exact ⟨rfl, by simp⟩
      | succ n' =>
          rw [List.drop_succ_cons] at h
          obtain ⟨h1, h2⟩ := ih h
          refine ⟨?_, ?_⟩
          · rw [List.take_succ_cons, List.take_succ_cons, h1]
            rfl
          · rw [List.drop_succ_cons, h2]

theorem waiting_covers {k : Nat} {ws : List Nat} (hnd : ws.Nodup)
    (hlt : ∀ i ∈ ws, i < k) (hlen : k ≤ ws.length) : ∀ j, j < k → j ∈ ws := by
  intro j hj
  have hsub : ws.toFinset ⊆ Finset.range k := by
    intro a ha
    rw [Finset.mem_range]
    exact hlt a (List.mem_toFinset.mp ha)
  have hcard : (Finset.range k).card ≤ ws.toFinset.card := by
    rw [Finset.card_range, List.toFinset_card_of_nodup hnd]
    exact hlen
  have heq := Finset.eq_of_subset_of_card_le hsub hcard
  have : j ∈ ws.toFinset := by
    rw [heq, Finset.mem_range]
    exact hj
  exact List.mem_toFinset.mp this

/-- Phase-independent state invariant of the multiplexer. -/
def MuxBase (k : Nat) (s : MuxState) : Prop :=
  s.active = k ∧ s.consumers.length = k ∧ s.waiting.Nodup ∧
  (∀ i ∈ s.waiting, i < k) ∧
  (∀ (i : Nat) (c : ConsumerState), s.consumers[i]? = some c →
    ((i ∈ s.waiting) ↔ ∃ r, c = ConsumerState.pending r)) ∧
  (s.started = false → s.phase = ProdPhase.notStarted)

/-- Per-phase invariant, as a function of the producer phase: `n` counts
the items already distributed to the consumers, every consumer's
received list is `items₀.take n` (or `items₀.take (n+1)` once it has
consumed the item currently in flight), and the producer's remaining
`items` are the corresponding suffix. -/
def MuxPhaseInvAt (k : Nat) (items₀ : List Nat) (s : MuxState) : ProdPhase → Prop
  | ProdPhase.notStarted =>
      s.done = false ∧ s.items = items₀ ∧
      ∀ (i : Nat) (c : ConsumerState), s.consumers[i]? = some c →
        c = ConsumerState.outside [] ∨ c = ConsumerState.pending []
  | ProdPhase.pull =>
      s.done = false ∧ ∃ n, s.items = items₀.drop n ∧
        ∀ (i : Nat) (c : ConsumerState), s.consumers[i]? = some c →
          c = ConsumerState.outside (items₀.take n) ∨
          c = ConsumerState.pending (items₀.take n)
  | ProdPhase.barrier v =>
      s.done = false ∧ s.consumed = 0 ∧ ∃ n, items₀.drop n = v :: s.items ∧
        ∀ (i : Nat) (c : ConsumerState), s.consumers[i]? = some c →
          c = ConsumerState.outside (items₀.take n) ∨
          c = ConsumerState.pending (items₀.take n)
  | ProdPhase.ack v =>
      s.done = false ∧ ∃ n, items₀.drop n = v :: s.items ∧
        s.consumed + s.consumers.countP isResolved = k ∧
        ∀ (i : Nat) (c : ConsumerState), s.consumers[i]? = some c →
          c = ConsumerState.resolved (some v) (items₀.take n) ∨
          c = ConsumerState.outside (items₀.take (n + 1)) ∨
          c = ConsumerState.pending (items₀.take (n + 1))
  | ProdPhase.finished =>
      s.done = true ∧ s.items = [] ∧
      ∀ (i : Nat) (c : ConsumerState), s.consumers[i]? = some c →
        c = ConsumerState.outside items₀ ∨
        c = ConsumerState.resolved none items₀ ∨ c = ConsumerState.finished items₀

def MuxPhaseInv (k : Nat) (items₀ : List Nat) (s : MuxState) : Prop :=
  MuxPhaseInvAt k items₀ s s.phase

def MuxInv (k : Nat) (items₀ : List Nat) (s : MuxState) : Prop :=
  MuxBase k s ∧ MuxPhaseInv k items₀ s

theorem muxInit_inv (k : Nat) (items₀ : List Nat) : MuxInv k items₀ (muxInit k items₀) := by
  constructor
  · refine ⟨rfl, by simp [muxInit], by simp [muxInit], by simp [muxInit], ?_, fun _ => rfl⟩
    intro i c hc
    simp only [muxInit] at hc ⊢
    rw [List.getElem?_replicate] at hc
    constructor
    · intro h
      simp at h
    · rintro ⟨r, rfl⟩
      split at hc
      · simp at hc
      · simp at hc
  · show MuxPhaseInv k items₀ (muxInit k items₀)
    refine ⟨rfl, rfl, ?_⟩
    intro i c hc
    simp only [muxInit] at hc
    rw [List.getElem?_replicate] at hc
    split at hc
    · cases hc
      exact Or.inl rfl
    · cases hc

theorem phaseInv_at (k : Nat) (items₀ : List Nat) (s : MuxState) {ph : ProdPhase}
    (hph : MuxPhaseInv k items₀ s) (h : s.phase = ph) : MuxPhaseInvAt k items₀ s ph :=
  h ▸ hph

/-- Every non-`finished` phase carries `done = false`, so `done = true`
pins the phase to `finished`. -/
theorem phase_of_done {k : Nat} {items₀ : List Nat} {s : MuxState}
    (hph : MuxPhaseInv k items₀ s) (hd : s.done = true) :
    s.phase = ProdPhase.finished := by
  unfold MuxPhaseInv at hph
  match hphase : s.phase with
  | ProdPhase.notStarted =>
      rw [hphase] at hph
      rw [hph.1] at hd
      cases hd
  | ProdPhase.pull =>
      rw [hphase] at hph
      rw [hph.1] at hd
      cases hd
  | ProdPhase.barrier v =>
      rw [hphase] at hph
      rw [hph.1] at hd
      cases hd
  | ProdPhase.ack v =>
      rw [hphase] at hph
      rw [hph.1] at hd
      cases hd
  | ProdPhase.finished => rfl

theorem muxStep_start_inv (k : Nat) (items₀ : List Nat) (s : MuxState)
    (h : MuxInv k items₀ s) : MuxInv k items₀ (muxStep s MuxLabel.start) := by
  obtain ⟨⟨hact, hlen, hnd, hbnd, hpiff, hst⟩, hph⟩ := h
  simp only [muxStep]
  by_cases hs : s.started
  · rw [if_pos hs]
    exact ⟨⟨hact, hlen, hnd, hbnd, hpiff, hst⟩, hph⟩
  · rw [if_neg hs]
    have hphase := hst (Bool.not_eq_true _ ▸ hs)
    have hph' := phaseInv_at k items₀ s hph hphase
    obtain ⟨hdone, hitems, hcons⟩ := hph'
    refine ⟨⟨hact, hlen, hnd, hbnd, hpiff, ?_⟩, ?_⟩
    · intro hcontra
      simp at hcontra
    · show MuxPhaseInvAt k items₀ _ ProdPhase.pull
      refine ⟨hdone, 0, by simpa using hitems, ?_⟩
      intro i c hc
      rcases hcons i c hc with h | h
      · exact Or.inl (by simpa using h)
      · exact Or.inr (by simpa using h)

theorem muxStep_producer_inv (k : Nat) (items₀ : List Nat) (s : MuxState)
    (h : MuxInv k items₀ s) : MuxInv k items₀ (muxStep s MuxLabel.producer) := by
  obtain ⟨⟨hact, hlen, hnd, hbnd, hpiff, hst⟩, hph⟩ := h
  have hstarted : ∀ ph, s.phase = ph → ph ≠ ProdPhase.notStarted →
      (s.started = false → False) := by
    intro ph hphase hne hf
    exact hne (hphase ▸ hst hf)
  match hphase : s.phase with
  | ProdPhase.notStarted =>
      simp only [muxStep, hphase]
      exact ⟨⟨hact, hlen, hnd, hbnd, hpiff, hst⟩, hph⟩
  | ProdPhase.finished =>
      simp only [muxStep, hphase]
      exact ⟨⟨hact, hlen, hnd, hbnd, hpiff, hst⟩, hph⟩
  | ProdPhase.pull =>
      obtain ⟨hdone, n, hitems_eq, hcons⟩ := phaseInv_at k items₀ s hph hphase
      match hitems : s.items with
      | [] =>
          simp only [muxStep, hphase, hitems]
          have htake : items₀.take n = items₀ := by
            apply List.take_of_length_le
            rw [hitems] at hitems_eq
            exact List.drop_eq_nil_iff.mp hitems_eq.symm
          refine ⟨⟨hact, ?_, List.nodup_nil, by simp, ?_, ?_⟩, ?_⟩
          · show (resolveAllGo none s.waiting 0 s.consumers).length = k
            rw [resolveAllGo_length]
            exact hlen
          · intro i c hc
            show i ∈ ([] : List Nat) ↔ _
            rw [resolveAllGo_getElem? none s.waiting s.consumers 0 i] at hc
            obtain ⟨c₀, hc₀, hfc⟩ := Option.map_eq_some'.mp hc
            constructor
            · intro hmem
              simp at hmem
            · rintro ⟨r, rfl⟩
              by_cases hiw : (0 + i) ∈ s.waiting
              · rw [if_pos hiw] at hfc
                obtain ⟨r', hr'⟩ := (hpiff i c₀ hc₀).mp (by simpa using hiw)
                rw [hr'] at hfc
                simp [resolveOne] at hfc
              · rw [if_neg hiw] at hfc
                refine absurd ?_ hiw
                simpa using (hpiff i c₀ hc₀).mpr ⟨r, hfc⟩
          · intro hf
            exact absurd (hst hf) (by rw [hphase]; simp)
          · show MuxPhaseInvAt k items₀ _ ProdPhase.finished
            refine ⟨rfl, rfl, ?_⟩
            intro i c hc
            rw [resolveAllGo_getElem? none s.waiting s.consumers 0 i] at hc
            obtain ⟨c₀, hc₀, hfc⟩ := Option.map_eq_some'.mp hc
            rcases hcons i c₀ hc₀ with hc1 | hc1
            · refine Or.inl ?_
              rw [hc1] at hfc
              rw [← hfc]
              split <;> simp [resolveOne, htake]
            · refine Or.inr (Or.inl ?_)
              have hiw : (0 + i) ∈ s.waiting := by
                simpa using (hpiff i c₀ hc₀).mpr ⟨_, hc1⟩
              rw [if_pos hiw, hc1] at hfc
              rw [← hfc]
              simp [resolveOne, htake]
      | v :: rest =>
          simp only [muxStep, hphase, hitems]
          refine ⟨⟨hact, hlen, hnd, hbnd, hpiff, ?_⟩, ?_⟩
          · intro hf
            exact absurd (hst hf) (by rw [hphase]; simp)
          · show MuxPhaseInvAt k items₀ _ (ProdPhase.barrier v)
            refine ⟨hdone, rfl, n, ?_, hcons⟩
            show items₀.drop n = v :: rest
            rw [← hitems_eq, hitems]
  | ProdPhase.barrier v =>
      obtain ⟨hdone, hcons0, n, hdrop, hcons⟩ := phaseInv_at k items₀ s hph hphase
      simp only [muxStep, hphase]
      by_cases hg : s.active ≤ s.waiting.length ∨ s.done
      · rw [if_pos hg]
        have hkle : k ≤ s.waiting.length := by
          rcases hg with hle | hd
          · exact hact ▸ hle
          · rw [hdone] at hd
            simp at hd
        have hcov := waiting_covers hnd hbnd hkle
        have hallpending : ∀ (i : Nat) (c : ConsumerState), s.consumers[i]? = some c →
            c = ConsumerState.pending (items₀.take n) := by
          intro i c hc
          have hik : i < k := by
            have := (List.getElem?_eq_some.mp hc).1
            omega
          rcases hcons i c hc with h1 | h1
          · obtain ⟨r', hr'⟩ := (hpiff i c hc).mp (hcov i hik)
            rw [h1] at hr'
            cases hr'
          · exact h1
        refine ⟨⟨hact, ?_, List.nodup_nil, by simp, ?_, ?_⟩, ?_⟩
        · show (resolveAllGo (some v) s.waiting 0 s.consumers).length = k
          rw [resolveAllGo_length]
          exact hlen
        · intro i c hc
          show i ∈ ([] : List Nat) ↔ _
          rw [resolveAllGo_getElem? (some v) s.waiting s.consumers 0 i] at hc
          obtain ⟨c₀, hc₀, hfc⟩ := Option.map_eq_some'.mp hc
          constructor
          · intro hmem
            simp at hmem
          · rintro ⟨r, rfl⟩
            have hik : i < k := by
              have := (List.getElem?_eq_some.mp hc₀).1
              omega
            have hiw : (0 + i) ∈ s.waiting := by simpa using hcov i hik
            rw [if_pos hiw, hallpending i c₀ hc₀] at hfc
            simp [resolveOne] at hfc
        · intro hf
          exact absurd (hst hf) (by rw [hphase]; simp)
        · show MuxPhaseInvAt k items₀ _ (ProdPhase.ack v)
          refine ⟨hdone, n, hdrop, ?_, ?_⟩
          · show s.consumed + (resolveAllGo (some v) s.waiting 0 s.consumers).countP isResolved = k
            have hall : ∀ c ∈ resolveAllGo (some v) s.waiting 0 s.consumers,
                isResolved c = true := by
              intro c hcmem
              obtain ⟨i, hc⟩ := List.mem_iff_getElem?.mp hcmem
              rw [resolveAllGo_getElem? (some v) s.waiting s.consumers 0 i] at hc
              obtain ⟨c₀, hc₀, hfc⟩ := Option.map_eq_some'.mp hc
              have hik : i < k := by
                have := (List.getElem?_eq_some.mp hc₀).1
                omega
              have hiw : (0 + i) ∈ s.waiting := by simpa using hcov i hik
              rw [if_pos hiw, hallpending i c₀ hc₀] at hfc
              rw [← hfc]
              rfl
            rw [List.countP_eq_length.mpr hall, resolveAllGo_length]
            rw [hcons0, hlen]
            omega
          · intro i c hc
            rw [resolveAllGo_getElem? (some v) s.waiting s.consumers 0 i] at hc
            obtain ⟨c₀, hc₀, hfc⟩ := Option.map_eq_some'.mp hc
            have hik : i < k := by
              have := (List.getElem?_eq_some.mp hc₀).1
              omega
            have hiw : (0 + i) ∈ s.waiting := by simpa using hcov i hik
            rw [if_pos hiw, hallpending i c₀ hc₀] at hfc
            exact Or.inl hfc.symm
      · rw [if_neg hg]
        exact ⟨⟨hact, hlen, hnd, hbnd, hpiff, hst⟩, hph⟩
  | ProdPhase.ack v =>
      obtain ⟨hdone, n, hdrop, hcount, hcons⟩ := phaseInv_at k items₀ s hph hphase
      simp only [muxStep, hphase]
      by_cases hg : s.active ≤ s.consumed ∨ s.done
      · rw [if_pos hg]
        have hkle : k ≤ s.consumed := by
          rcases hg with hle | hd
          · exact hact ▸ hle
          · rw [hdone] at hd
            simp at hd
        have hzero : s.consumers.countP isResolved = 0 := by omega
        have hnores := List.countP_eq_zero.mp hzero
        refine ⟨⟨hact, hlen, hnd, hbnd, hpiff, ?_⟩, ?_⟩
        · intro hf
          exact absurd (hst hf) (by rw [hphase]; simp)
        · show MuxPhaseInvAt k items₀ _ ProdPhase.pull
          refine ⟨hdone, n + 1, ?_, ?_⟩
          · show s.items = items₀.drop (n + 1)
            rw [(take_succ_of_drop_cons hdrop).2]
          · intro i c hc
            rcases hcons i c hc with h1 | h1 | h1
            · exfalso
              apply hnores c (List.getElem?_mem hc)
              rw [h1]
              rfl
            · exact Or.inl h1
            · exact Or.inr h1
      · rw [if_neg hg]
        exact ⟨⟨hact, hlen, hnd, hbnd, hpiff, hst⟩, hph⟩

theorem countP_set_decrease {cs : List ConsumerState} {i : Nat}
    {c x : ConsumerState} (h : cs[i]? = some c) (hc : isResolved c = true)
    (hx : isResolved x = false) :
    (cs.set i x).countP isResolved + 1 = cs.countP isResolved := by
  have h2 := countP_set_getElem? isResolved cs i c x h
  rw [hc, hx] at h2
  simpa using h2

theorem countP_set_keep {cs : List ConsumerState} {i : Nat}
    {c x : ConsumerState} (h : cs[i]? = some c) (hc : isResolved c = false)
    (hx : isResolved x = false) :
    (cs.set i x).countP isResolved = cs.countP isResolved := by
  have h2 := countP_set_getElem? isResolved cs i c x h
  rw [hc, hx] at h2
  simpa using h2

theorem muxStep_callNext_inv (k : Nat) (items₀ : List Nat) (s : MuxState) (i : Nat)
    (h : MuxInv k items₀ s) : MuxInv k items₀ (muxStep s (MuxLabel.callNext i)) := by
  obtain ⟨⟨hact, hlen, hnd, hbnd, hpiff, hst⟩, hph⟩ := h
  match hci : s.consumers[i]? with
  | none => simpa [muxStep, hci] using ⟨⟨hact, hlen, hnd, hbnd, hpiff, hst⟩, hph⟩
  | some (ConsumerState.pending r) =>
      simpa [muxStep, hci] using ⟨⟨hact, hlen, hnd, hbnd, hpiff, hst⟩, hph⟩
  | some (ConsumerState.resolved v r) =>
      simpa [muxStep, hci] using ⟨⟨hact, hlen, hnd, hbnd, hpiff, hst⟩, hph⟩
  | some (ConsumerState.finished r) =>
      simpa [muxStep, hci] using ⟨⟨hact, hlen, hnd, hbnd, hpiff, hst⟩, hph⟩
  | some (ConsumerState.outside r) =>
      have hik : i < s.consumers.length := (List.getElem?_eq_some.mp hci).1
      have hiw : i ∉ s.waiting := by
        intro hmem
        obtain ⟨r', hr'⟩ := (hpiff i _ hci).mp hmem
        cases hr'
      simp only [muxStep, hci]
      by_cases hd : (s.done : Prop)
      · rw [if_pos hd]
        have hfin := phase_of_done hph (by simpa using hd)
        obtain ⟨hdone, hitems, hcons⟩ := phaseInv_at k items₀ s hph hfin
        have hr : r = items₀ := by
          rcases hcons i _ hci with h1 | h1 | h1 <;> cases h1
          rfl
        subst r
        refine ⟨⟨hact, by rw [List.length_set]; exact hlen, hnd, hbnd, ?_, hst⟩, ?_⟩
        · intro j c hc
          by_cases hji : j = i
          · subst hji
            rw [List.getElem?_set_self hik] at hc
            cases hc
            constructor
            · intro hmem
              exact absurd hmem hiw
            · rintro ⟨r', hr'⟩
              cases hr'
          · rw [List.getElem?_set_ne (fun hh => hji hh.symm)] at hc
            exact hpiff j c hc
        · show MuxPhaseInvAt k items₀ _ s.phase
          rw [hfin]
          refine ⟨hdone, hitems, ?_⟩
          intro j c hc
          by_cases hji : j = i
          · subst hji
            rw [List.getElem?_set_self hik] at hc
            cases hc
            exact Or.inr (Or.inr rfl)
          · rw [List.getElem?_set_ne (fun hh => hji hh.symm)] at hc
            exact hcons j c hc
      · rw [if_neg hd]
        have hdone : s.done = false := by simpa using hd
        have hbase : MuxBase k { s with
            consumers := s.consumers.set i (ConsumerState.pending r),
            waiting := s.waiting ++ [i] } := by
          refine ⟨hact, by rw [List.length_set]; exact hlen, ?_, ?_, ?_, hst⟩
          · show (s.waiting ++ [i]).Nodup
            simp [List.nodup_append, hnd, hiw]
          · intro j hj
            show j < k
            rcases List.mem_append.mp hj with hj | hj
            · exact hbnd j hj
            · rw [List.mem_singleton] at hj
              subst hj
              exact hlen ▸ hik
          · intro j c hc
            show j ∈ s.waiting ++ [i] ↔ _
            by_cases hji : j = i
            · subst hji
              rw [List.getElem?_set_self hik] at hc
              cases hc
              simp
            · rw [List.getElem?_set_ne (fun hh => hji hh.symm)] at hc
              rw [List.mem_append, List.mem_singleton]
              constructor
              · rintro (hj | hj)
                · exact (hpiff j c hc).mp hj
                · exact absurd hj hji
              · intro hex
                exact Or.inl ((hpiff j c hc).mpr hex)
        refine ⟨hbase, ?_⟩
        show MuxPhaseInvAt k items₀ _ s.phase
        match hphase : s.phase with
        | ProdPhase.finished =>
            obtain ⟨hd1, _, _⟩ := phaseInv_at k items₀ s hph hphase
            rw [hd1] at hdone
            cases hdone
        | ProdPhase.notStarted =>
            obtain ⟨hd1, hitems, hcons⟩ := phaseInv_at k items₀ s hph hphase
            have hr : r = [] := by
              rcases hcons i _ hci with h1 | h1 <;> cases h1
              rfl
            subst hr
            refine ⟨hd1, hitems, ?_⟩
            intro j c hc
            by_cases hji : j = i
            · subst hji
              rw [List.getElem?_set_self hik] at hc
              cases hc
              exact Or.inr rfl
            · rw [List.getElem?_set_ne (fun hh => hji hh.symm)] at hc
              exact hcons j c hc
        | ProdPhase.pull =>
            obtain ⟨hd1, n, hitems, hcons⟩ := phaseInv_at k items₀ s hph hphase
            have hr : r = items₀.take n := by
              rcases hcons i _ hci with h1 | h1 <;> cases h1
              rfl
            subst hr
            refine ⟨hd1, n, hitems, ?_⟩
            intro j c hc
            by_cases hji : j = i
            · subst hji
              rw [List.getElem?_set_self hik] at hc
              cases hc
              exact Or.inr rfl
            · rw [List.getElem?_set_ne (fun hh => hji hh.symm)] at hc
              exact hcons j c hc
        | ProdPhase.barrier v =>
            obtain ⟨hd1, hcons0, n, hdropn, hcons⟩ := phaseInv_at k items₀ s hph hphase
            have hr : r = items₀.take n := by
              rcases hcons i _ hci with h1 | h1 <;> cases h1
              rfl
            subst hr
            refine ⟨hd1, hcons0, n, hdropn, ?_⟩
            intro j c hc
            by_cases hji : j = i
            · subst hji
              rw [List.getElem?_set_self hik] at hc
              cases hc
              exact Or.inr rfl
            · rw [List.getElem?_set_ne (fun hh => hji hh.symm)] at hc
              exact hcons j c hc
        | ProdPhase.ack v =>
            obtain ⟨hd1, n, hdropn, hcount, hcons⟩ := phaseInv_at k items₀ s hph hphase
            have hr : r = items₀.take (n + 1) := by
              rcases hcons i _ hci with h1 | h1 | h1 <;> cases h1
              rfl
            subst hr
            refine ⟨hd1, n, hdropn, ?_, ?_⟩
            · show s.consumed +
                (s.consumers.set i (ConsumerState.pending (items₀.take (n + 1)))).countP
                  isResolved = k
              rw [@countP_set_keep s.consumers i
                (ConsumerState.outside (items₀.take (n + 1)))
                (ConsumerState.pending (items₀.take (n + 1))) hci rfl rfl]
              exact hcount
            · intro j c hc
              by_cases hji : j = i
              · subst hji
                rw [List.getElem?_set_self hik] at hc
                cases hc
                exact Or.inr (Or.inr rfl)
              · rw [List.getElem?_set_ne (fun hh => hji hh.symm)] at hc
                exact hcons j c hc

theorem muxStep_resume_inv (k : Nat) (items₀ : List Nat) (s : MuxState) (i : Nat)
    (h : MuxInv k items₀ s) : MuxInv k items₀ (muxStep s (MuxLabel.resume i)) := by
  obtain ⟨⟨hact, hlen, hnd, hbnd, hpiff, hst⟩, hph⟩ := h
  match hci : s.consumers[i]? with
  | none => simpa [muxStep, hci] using ⟨⟨hact, hlen, hnd, hbnd, hpiff, hst⟩, hph⟩
  | some (ConsumerState.pending r) =>
      simpa [muxStep, hci] using ⟨⟨hact, hlen, hnd, hbnd, hpiff, hst⟩, hph⟩
  | some (ConsumerState.outside r) =>
      simpa [muxStep, hci] using ⟨⟨hact, hlen, hnd, hbnd, hpiff, hst⟩, hph⟩
  | some (ConsumerState.finished r) =>
      simpa [muxStep, hci] using ⟨⟨hact, hlen, hnd, hbnd, hpiff, hst⟩, hph⟩
  | some (ConsumerState.resolved (some v) r) =>
      have hik : i < s.consumers.length := (List.getElem?_eq_some.mp hci).1
      have hiw : i ∉ s.waiting := by
        intro hmem
        obtain ⟨r', hr'⟩ := (hpiff i _ hci).mp hmem
        cases hr'
      simp only [muxStep, hci]
      match hphase : s.phase with
      | ProdPhase.notStarted =>
          obtain ⟨_, _, hcons⟩ := phaseInv_at k items₀ s hph hphase
          rcases hcons i _ hci with h1 | h1 <;> cases h1
      | ProdPhase.pull =>
          obtain ⟨_, n, _, hcons⟩ := phaseInv_at k items₀ s hph hphase
          rcases hcons i _ hci with h1 | h1 <;> cases h1
      | ProdPhase.barrier w =>
          obtain ⟨_, _, n, _, hcons⟩ := phaseInv_at k items₀ s hph hphase
          rcases hcons i _ hci with h1 | h1 <;> cases h1
      | ProdPhase.finished =>
          obtain ⟨_, _, hcons⟩ := phaseInv_at k items₀ s hph hphase
          rcases hcons i _ hci with h1 | h1 | h1 <;> cases h1
      | ProdPhase.ack w =>
          obtain ⟨hd1, n, hdropn, hcount, hcons⟩ := phaseInv_at k items₀ s hph hphase
          have hvr : v = w ∧ r = items₀.take n := by
            rcases hcons i _ hci with h1 | h1 | h1 <;> cases h1
            exact ⟨rfl, rfl⟩
          obtain ⟨rfl, rfl⟩ := hvr
          refine ⟨⟨hact, by rw [List.length_set]; exact hlen, hnd, hbnd, ?_, ?_⟩, ?_⟩
          · intro j c hc
            by_cases hji : j = i
            · subst hji
              rw [List.getElem?_set_self hik] at hc
              cases hc
              constructor
              · intro hmem
                exact absurd hmem hiw
              · rintro ⟨r', hr'⟩
                cases hr'
            · rw [List.getElem?_set_ne (fun hh => hji hh.symm)] at hc
              exact hpiff j c hc
          · intro hf
            exact absurd (hst hf) (by rw [hphase]; simp)
          · show MuxPhaseInvAt k items₀ _ (ProdPhase.ack _)
            refine ⟨hd1, n, hdropn, ?_, ?_⟩
            · show s.consumed + 1 +
                (s.consumers.set i (ConsumerState.outside
                  (items₀.take n ++ [v]))).countP isResolved = k
              have h2 := @countP_set_decrease s.consumers i
                (ConsumerState.resolved (some v) (items₀.take n))
                (ConsumerState.outside (items₀.take n ++ [v])) hci rfl rfl
              omega
            · intro j c hc
              by_cases hji : j = i
              · subst hji
                rw [List.getElem?_set_self hik] at hc
                cases hc
                refine Or.inr (Or.inl ?_)
                rw [(take_succ_of_drop_cons hdropn).1]
              · rw [List.getElem?_set_ne (fun hh => hji hh.symm)] at hc
                exact hcons j c hc
  | some (ConsumerState.resolved none r) =>
      have hik : i < s.consumers.length := (List.getElem?_eq_some.mp hci).1
      have hiw : i ∉ s.waiting := by
        intro hmem
        obtain ⟨r', hr'⟩ := (hpiff i _ hci).mp hmem
        cases hr'
      simp only [muxStep, hci]
      match hphase : s.phase with
      | ProdPhase.notStarted =>
          obtain ⟨_, _, hcons⟩ := phaseInv_at k items₀ s hph hphase
          rcases hcons i _ hci with h1 | h1 <;> cases h1
      | ProdPhase.pull =>
          obtain ⟨_, n, _, hcons⟩ := phaseInv_at k items₀ s hph hphase
          rcases hcons i _ hci with h1 | h1 <;> cases h1
      | ProdPhase.barrier w =>
          obtain ⟨_, _, n, _, hcons⟩ := phaseInv_at k items₀ s hph hphase
          rcases hcons i _ hci with h1 | h1 <;> cases h1
      | ProdPhase.ack w =>
          obtain ⟨_, n, _, _, hcons⟩ := phaseInv_at k items₀ s hph hphase
          rcases hcons i _ hci with h1 | h1 | h1 <;> cases h1
      | ProdPhase.finished =>
          obtain ⟨hd1, hitems, hcons⟩ := phaseInv_at k items₀ s hph hphase
          have hr : r = items₀ := by
            rcases hcons i _ hci with h1 | h1 | h1 <;> cases h1
            rfl
          subst r
          refine ⟨⟨hact, by rw [List.length_set]; exact hlen, hnd, hbnd, ?_, ?_⟩, ?_⟩
          · intro j c hc
            by_cases hji : j = i
            · subst hji
              rw [List.getElem?_set_self hik] at hc
              cases hc
              constructor
              · intro hmem
                exact absurd hmem hiw
              · rintro ⟨r', hr'⟩
                cases hr'
            · rw [List.getElem?_set_ne (fun hh => hji hh.symm)] at hc
              exact hpiff j c hc
          · intro hf
            exact absurd (hst hf) (by rw [hphase]; simp)
          · show MuxPhaseInvAt k items₀ _ ProdPhase.finished
            refine ⟨hd1, hitems, ?_⟩
            intro j c hc
            by_cases hji : j = i
            · subst hji
              rw [List.getElem?_set_self hik] at hc
              cases hc
              exact Or.inr (Or.inr rfl)
            · rw [List.getElem?_set_ne (fun hh => hji hh.symm)] at hc
              exact hcons j c hc

theorem muxRun_inv (k : Nat) (items₀ : List Nat) :
    ∀ (labels : List MuxLabel) (s : MuxState), MuxLabel.close ∉ labels →
      MuxInv k items₀ s → MuxInv k items₀ (muxRun s labels) := by
  intro labels
  induction labels with
  | nil => intro s _ h; exact h
  | cons l ls ih =>
      intro s hnc h
      rw [muxRun_cons]
      have hl : l ≠ MuxLabel.close := fun he => hnc (he ▸ List.mem_cons_self _ _)
      have hstep : MuxInv k items₀ (muxStep s l) := by
        match l with
        | MuxLabel.start => exact muxStep_start_inv k items₀ s h
        | MuxLabel.producer => exact muxStep_producer_inv k items₀ s h
        | MuxLabel.callNext i => exact muxStep_callNext_inv k items₀ s i h
        | MuxLabel.resume i => exact muxStep_resume_inv k items₀ s i h
        | MuxLabel.close => exact absurd rfl hl
      exact ih _ (fun hm => hnc (List.mem_cons_of_mem _ hm)) hstep

/-- What the invariant says about observable behaviour: all consumers
have received the same prefix of the producer sequence (up to the single
item currently in flight), and the producer has pulled at most one item
beyond the common prefix. -/
theorem muxInv_lockstep {k : Nat} {items₀ : List Nat} {s : MuxState}
    (h : MuxInv k items₀ s) :
    ∃ n, (∀ c ∈ s.consumers, receivedOf c = items₀.take n ∨
        receivedOf c = items₀.take (n + 1)) ∧
      items₀.length - s.items.length ≤ n + 1 := by
  obtain ⟨_, hph⟩ := h
  unfold MuxPhaseInv at hph
  match hphase : s.phase with
  | ProdPhase.notStarted =>
      rw [hphase] at hph
      obtain ⟨_, hitems, hcons⟩ := hph
      refine ⟨0, ?_, by rw [hitems]; omega⟩
      intro c hcmem
      obtain ⟨i, hc⟩ := List.mem_iff_getElem?.mp hcmem
      rcases hcons i c hc with h1 | h1 <;> subst h1 <;>
        exact Or.inl (by simp [receivedOf])
  | ProdPhase.pull =>
      rw [hphase] at hph
      obtain ⟨_, n, hitems, hcons⟩ := hph
      refine ⟨n, ?_, ?_⟩
      · intro c hcmem
        obtain ⟨i, hc⟩ := List.mem_iff_getElem?.mp hcmem
        rcases hcons i c hc with h1 | h1 <;> subst h1 <;>
          exact Or.inl (by simp [receivedOf])
      · have := congrArg List.length hitems
        rw [List.length_drop] at this
        omega
  | ProdPhase.barrier v =>
      rw [hphase] at hph
      obtain ⟨_, _, n, hdrop, hcons⟩ := hph
      refine ⟨n, ?_, ?_⟩
      · intro c hcmem
        obtain ⟨i, hc⟩ := List.mem_iff_getElem?.mp hcmem
        rcases hcons i c hc with h1 | h1 <;> subst h1 <;>
          exact Or.inl (by simp [receivedOf])
      · have := congrArg List.length hdrop
        rw [List.length_drop] at this
        simp only [List.length_cons] at this
        omega
  | ProdPhase.ack v =>
      rw [hphase] at hph
      obtain ⟨_, n, hdrop, _, hcons⟩ := hph
      refine ⟨n, ?_, ?_⟩
      · intro c hcmem
        obtain ⟨i, hc⟩ := List.mem_iff_getElem?.mp hcmem
        rcases hcons i c hc with h1 | h1 | h1 <;> subst h1
        · exact Or.inl (by simp [receivedOf])
        · exact Or.inr (by simp [receivedOf])
        · exact Or.inr (by simp [receivedOf])
      · have := congrArg List.length hdrop
        rw [List.length_drop] at this
        simp only [List.length_cons] at this
        omega
  | ProdPhase.finished =>
      rw [hphase] at hph
      obtain ⟨_, hitems, hcons⟩ := hph
      refine ⟨items₀.length, ?_, by rw [hitems]; simp⟩
      intro c hcmem
      obtain ⟨i, hc⟩ := List.mem_iff_getElem?.mp hcmem
      rcases hcons i c hc with h1 | h1 | h1 <;> subst h1 <;>
        exact Or.inl (by simp [receivedOf, List.take_length])

/-- C6 (amended): while the multiplexer runs with K active consumers (no
`close()`), every value is delivered identically — in the same order —
to all K consumers: each consumer's received sequence is a prefix of the
producer sequence, all consumers sit within one item of each other, and
the producer is pulled at most one item ahead of the commonly delivered
prefix.  The original claim's stronger clause — that an item is pulled
from the producer only after all K consumers have registered pending
pulls for it — is false: the `for await` loop pulls the next item first
and only then waits at the barrier (`C6_counterexample_eager_first_pull`);
the barrier governs delivery and the pull of the item after it. -/
theorem C6_lockstep_delivery (k : Nat) (items₀ : List Nat) (labels : List MuxLabel)
    (hnc : MuxLabel.close ∉ labels) :
    ∃ n, (∀ c ∈ (muxRun (muxInit k items₀) labels).consumers,
        receivedOf c = items₀.take n ∨ receivedOf c = items₀.take (n + 1)) ∧
      items₀.length - (muxRun (muxInit k items₀) labels).items.length ≤ n + 1 :=
  muxInv_lockstep (muxRun_inv k items₀ labels _ hnc (muxInit_inv k items₀))

/-- C6 witness: a complete delivery round with two consumers — register,
pull, distribute, both acknowledgements, next pull. -/
theorem C6_lockstep_delivery_witness :
    ∃ n, (∀ c ∈ (muxRun (muxInit 2 [3, 4])
        [MuxLabel.start, MuxLabel.callNext 0, MuxLabel.callNext 1, MuxLabel.producer,
         MuxLabel.producer, MuxLabel.resume 0, MuxLabel.resume 1,
         MuxLabel.producer]).consumers,
        receivedOf c = [3, 4].take n ∨ receivedOf c = [3, 4].take (n + 1)) ∧
      ([3, 4] : List Nat).length -
        (muxRun (muxInit 2 [3, 4])
          [MuxLabel.start, MuxLabel.callNext 0, MuxLabel.callNext 1, MuxLabel.producer,
           MuxLabel.producer, MuxLabel.resume 0, MuxLabel.resume 1,
           MuxLabel.producer]).items.length ≤ n + 1 :=
  C6_lockstep_delivery 2 [3, 4]
    [MuxLabel.start, MuxLabel.callNext 0, MuxLabel.callNext 1, MuxLabel.producer,
     MuxLabel.producer, MuxLabel.resume 0, MuxLabel.resume 1, MuxLabel.producer]
    (by decide)

/-! ## § Segmented parallel scanner (`DynamoDbClientBase.scanParallel`)

The backing table is modelled per segmented-scan semantics: for the
chosen `totalSegments`, segment `s` holds an ordered list of pages, each
page being its item count (a plain scan has `ScannedCount = Count =
Items.length`); a scan request for segment `s` with pagination bookmark
`k` (page index; `none` = start) returns page `k` and a bookmark `k+1`
unless `k` was the last page.  The `Promise.race` first-completed-wins
reaping is an explicit schedule: at each step the next schedule entry
(mod the number of in-flight requests) picks which pending scan
completes.  The outer `while` loop gets explicit fuel; `none` means the
fuel ran out (the loop would still be running). -/

/-- `TDynamoDBTableMetrics`. -/
structure TableMetrics where
  tableSizeBytes : Nat
  itemCount      : Nat
  partitionKey   : Nat
  deriving Repr, DecidableEq

/-- `DynamoDbClientBase.getApproximateItemsLimit`: throws on degenerate
metrics, else `Math.max(Math.floor(DYNAMODB_MAX_SCAN_SIZE_IN_BYTES /
(tableSizeBytes / itemCount)), 1)` with
`DYNAMODB_MAX_SCAN_SIZE_IN_BYTES = 0.9 * 1024 * 1024 = 4718592 / 5`
(exact rational arithmetic; `Nat` floor division). -/
def getApproximateItemsLimitE (m : TableMetrics) : Except Unit Nat :=
  if m.itemCount = 0 ∨ m.tableSizeBytes = 0 then Except.error ()
  else Except.ok (max ((4718592 * m.itemCount) / (5 * m.tableSizeBytes)) 1)

/-- `totalSegments = Math.min(Math.floor(limit / 2), 10000,
metrics.itemCount)`, computed once at the top of `scanParallel`. -/
def totalSegmentsE (m : TableMetrics) : Except Unit Nat :=
  (getApproximateItemsLimitE m).map (fun a => min (min (a / 2) 10000) m.itemCount)

/-- One in-flight segment scan request, as issued at wave creation. -/
structure PendingScan where
  index    : Nat
  segment  : Nat
  startKey : Option Nat
  deriving Repr, DecidableEq

instance : Inhabited PendingScan := ⟨⟨0, 0, none⟩⟩

/-- One emitted `IScanParallelResult` (`meta.scanned` only; a result is
emitted only when its page is non-empty). -/
structure Emit where
  segment : Nat
  scanned : Nat
  deriving Repr, DecidableEq

def emitsSum (es : List Emit) : Nat := (es.map Emit.scanned).sum

/-- `segmentLastKeys` as an association list. -/
def keysGet (ks : List (Nat × Nat)) (s : Nat) : Option Nat :=
  (ks.find? (fun p => p.1 = s)).map Prod.snd

def keysSet (ks : List (Nat × Nat)) (s v : Nat) : List (Nat × Nat) :=
  ks.filter (fun p => ¬(p.1 = s)) ++ [(s, v)]

def keysDelete (ks : List (Nat × Nat)) (s : Nat) : List (Nat × Nat) :=
  ks.filter (fun p => ¬(p.1 = s))

/-- The storage backend's answer to one segment scan request:
`(ScannedCount, LastEvaluatedKey)`. -/
def scanResult (table : List (List Nat)) (seg : Nat) (key : Option Nat) :
    Nat × Option Nat :=
  let pages := table.getD seg []
  let idx := key.getD 0
  (pages.getD idx 0, if idx + 1 < pages.length then some (idx + 1) else none)

structure ScanSt where
  segmentIndex : Nat
  scanned      : Nat
  keys         : List (Nat × Nat)
  emitted      : List Emit
  deriving Repr, DecidableEq

/-- The inner `while (pendingScans.length > 0)` loop: the schedule picks
which pending request completes (`Promise.race`); its bookmark is stored
or cleared, a non-empty page is counted and emitted, the request leaves
the pool, and `segmentIndex` advances only when the segment reported no
bookmark. -/
def waveLoop (table : List (List Nat)) :
    Nat → List PendingScan → List Nat → ScanSt → ScanSt × List Nat
  | _, [], sched, st => (st, sched)
  | 0, _, sched, st => (st, sched)
  | fuel + 1, pending, sched, st =>
      let pick := sched.headD 0 % pending.length
      let p := pending.getD pick default
      let r := scanResult table p.segment p.startKey
      let keys' := match r.2 with
        | some nk => keysSet st.keys p.segment nk
        | none => keysDelete st.keys p.segment
      let st' : ScanSt :=
        { segmentIndex := if r.2 = none then st.segmentIndex + 1 else st.segmentIndex
          scanned := if r.1 ≠ 0 then st.scanned + r.1 else st.scanned
          keys := keys'
          emitted := if r.1 ≠ 0 then st.emitted ++ [⟨p.segment, r.1⟩] else st.emitted }
      waveLoop table fuel (pending.eraseIdx pick) sched.tail st'

/-- The outer `while (scannedItemsCount < metrics.itemCount)` loop of
`scanParallel`, with fuel: build the next wave from `segmentIndex`, run
it to completion, and reset `segmentIndex` to re-scan segments still
holding bookmarks once the sweep has passed the end. -/
def scanLoop (table : List (List Nat)) (m : TableMetrics) (mp t : Nat) :
    Nat → List Nat → ScanSt → Option (List Emit)
  | 0, _, _ => none
  | fuel + 1, sched, st =>
      if m.itemCount ≤ st.scanned then some st.emitted
      else
        let waveSize := min mp (t - st.segmentIndex)
        let pending := (List.range waveSize).map
          (fun j => PendingScan.mk (st.segmentIndex + j) (st.segmentIndex + j)
            (keysGet st.keys (st.segmentIndex + j)))
        let w := waveLoop table pending.length pending sched st
        let st' := if t ≤ w.1.segmentIndex ∧ w.1.scanned < m.itemCount ∧
            w.1.keys.length ≠ 0 then
          { w.1 with segmentIndex := 0 } else w.1
        scanLoop table m mp t fuel w.2 st'

/-- `scanParallel`: compute the segment plan (the precondition check in
`getApproximateItemsLimit` throws first, before any request is issued),
then run the scan loop from a fresh state. -/
def scanParallelRun (table : List (List Nat)) (m : TableMetrics) (mp : Nat)
    (sched : List Nat) (fuel : Nat) : Except Unit (Option (List Emit)) :=
  match totalSegmentsE m with
  | Except.error e => Except.error e
  | Except.ok t => Except.ok (scanLoop table m mp t fuel sched ⟨0, 0, [], []⟩)

/-! ### Scanner lemmas: single-page segments -/

/-- Row count of a segment in the table model. -/
def segSum (table : List (List Nat)) (s : Nat) : Nat := (table.getD s []).sum

/-- Rows contained in the first `j` segments. -/
def sumTo (table : List (List Nat)) (j : Nat) : Nat :=
  ((table.take j).map List.sum).sum

def pendingSum (table : List (List Nat)) (pending : List PendingScan) : Nat :=
  (pending.map (fun p => segSum table p.segment)).sum

theorem pendingSum_nil (table : List (List Nat)) : pendingSum table [] = 0 := rfl

theorem emitsSum_append (es : List Emit) (e : Emit) :
    emitsSum (es ++ [e]) = emitsSum es + e.scanned := by
  simp [emitsSum]

theorem pendingSum_cons (table : List (List Nat)) (p : PendingScan)
    (ps : List PendingScan) :
    pendingSum table (p :: ps) = segSum table p.segment + pendingSum table ps := by
  simp [pendingSum]

theorem pendingSum_eraseIdx (table : List (List Nat)) :
    ∀ (pending : List PendingScan) (pick : Nat), pick < pending.length →
      pendingSum table (pending.eraseIdx pick) +
        segSum table (pending.getD pick default).segment = pendingSum table pending := by
  intro pending
  induction pending with
  | nil => intro pick h; simp at h
  | cons p ps ih =>
      intro pick h
      cases pick with
      | zero =>
          simp only [List.eraseIdx_cons_zero, List.getD_cons_zero, pendingSum_cons]
          omega
      | succ pk =>
          simp only [List.eraseIdx_cons_succ, List.getD_cons_succ, pendingSum_cons]
          have := ih pk (by simpa using h)
          omega

theorem pages_le_one (table : List (List Nat))
    (hpages : ∀ p ∈ table, p.length ≤ 1) (seg : Nat) :
    (table.getD seg []).length ≤ 1 := by
  rw [List.getD_eq_getElem?_getD]
  match h : table[seg]? with
  | none => simp
  | some pg => simpa using hpages pg (List.getElem?_mem h)

/-- In a table whose segments are all single-page, every fresh segment
request returns the whole segment and no bookmark. -/
theorem scanResult_single (table : List (List Nat))
    (hpages : ∀ p ∈ table, p.length ≤ 1) (seg : Nat) :
    scanResult table seg none = (segSum table seg, none) := by
  have h1 := pages_le_one table hpages seg
  unfold scanResult segSum
  match hp : table.getD seg [] with
  | [] => simp
  | [c] => simp
  | c1 :: c2 :: rest =>
      rw [hp] at h1
      simp at h1

/-- Running a wave over single-page segments, under any schedule:
`segmentIndex` advances once per request, the scanned counter and the
emitted total both grow by exactly the wave's row count, and no
bookmarks survive. -/
theorem waveLoop_single (table : List (List Nat))
    (hpages : ∀ p ∈ table, p.length ≤ 1) :
    ∀ (len : Nat) (pending : List PendingScan), pending.length = len →
      ∀ (sched : List Nat) (st : ScanSt), st.keys = [] →
      (∀ p ∈ pending, p.startKey = none) →
      (waveLoop table pending.length pending sched st).1.segmentIndex =
          st.segmentIndex + pending.length ∧
      (waveLoop table pending.length pending sched st).1.scanned =
          st.scanned + pendingSum table pending ∧
      (waveLoop table pending.length pending sched st).1.keys = [] ∧
      emitsSum (waveLoop table pending.length pending sched st).1.emitted =
          emitsSum st.emitted + pendingSum table pending := by
  intro len
  induction len with
  | zero =>
      intro pending hlen sched st hkeys _
      have : pending = [] := List.length_eq_zero.mp hlen
      subst this
      simp [waveLoop, pendingSum_nil, hkeys]
  | succ len ih =>
      intro pending hlen sched st hkeys hsk
      have hpos : 0 < pending.length := by omega
      have hpick : sched.headD 0 % pending.length < pending.length :=
        Nat.mod_lt _ hpos
      obtain ⟨q, qs, rfl⟩ : ∃ q qs, pending = q :: qs := by
        cases pending with
        | nil => simp at hpos
        | cons q qs => exact ⟨q, qs, rfl⟩
      have hpmem : (q :: qs).getD (sched.headD 0 % (q :: qs).length) default
          ∈ q :: qs := by
        rw [List.getD_eq_getElem?_getD]
        match hg : (q :: qs)[sched.headD 0 % (q :: qs).length]? with
        | some x => exact List.getElem?_mem hg
        | none =>
            rw [List.getElem?_eq_none_iff] at hg
            omega
      have hpsk : ((q :: qs).getD (sched.headD 0 % (q :: qs).length) default).startKey
          = none := hsk _ hpmem
      have hscan := scanResult_single table hpages
        ((q :: qs).getD (sched.headD 0 % (q :: qs).length) default).segment
      have hler : ((q :: qs).eraseIdx (sched.headD 0 % (q :: qs).length)).length
          = len := by
        rw [List.length_eraseIdx, if_pos hpick]
        omega
      simp only [List.length_cons, waveLoop]
      simp only [← List.length_cons q qs, hpsk, hscan, hkeys]
      simp only [keysDelete, List.filter_nil]
      have hIH := ih ((q :: qs).eraseIdx (sched.headD 0 % (q :: qs).length)) hler
      have hsk' : ∀ p ∈ (q :: qs).eraseIdx (sched.headD 0 % (q :: qs).length),
          p.startKey = none := fun p hm => hsk p (List.mem_of_mem_eraseIdx hm)
      have hsum := pendingSum_eraseIdx table (q :: qs)
        (sched.headD 0 % (q :: qs).length) hpick
      have hlen1 : qs.length = len := by simpa using hlen
      by_cases h0 : segSum table
          ((q :: qs).getD (sched.headD 0 % (q :: qs).length) default).segment = 0
      · simp only [h0, ne_eq, not_true_eq_false, if_false, ite_false, if_true, ite_true]
        have hstep := hIH sched.tail
          ⟨st.segmentIndex + 1, st.scanned, [], st.emitted⟩ rfl hsk'
        rw [hler] at hstep
        rw [hlen1]
        obtain ⟨h1, h2, h3, h4⟩ := hstep
        refine ⟨?_, ?_, h3, ?_⟩
        · rw [h1]
          dsimp only
          omega
        · rw [h2]
          dsimp only
          omega
        · rw [h4]
          dsimp only
          omega
      · simp only [h0, ne_eq, not_false_eq_true, if_true, ite_true, if_false, ite_false]
        have hstep := hIH sched.tail
          ⟨st.segmentIndex + 1,
           st.scanned + segSum table
             ((q :: qs).getD (sched.headD 0 % (q :: qs).length) default).segment,
           [],
           st.emitted ++ [⟨((q :: qs).getD (sched.headD 0 % (q :: qs).length)
             default).segment,
             segSum table ((q :: qs).getD (sched.headD 0 % (q :: qs).length)
               default).segment⟩]⟩ rfl hsk'
        rw [hler] at hstep
        rw [hlen1]
        obtain ⟨h1, h2, h3, h4⟩ := hstep
        refine ⟨?_, ?_, h3, ?_⟩
        · rw [h1]
          dsimp only
          omega
        · rw [h2]
          dsimp only
          omega
        · rw [h4, emitsSum_append]
          dsimp only
          omega

theorem keysGet_nil (x : Nat) : keysGet [] x = none := rfl

theorem sumTo_zero (table : List (List Nat)) : sumTo table 0 = 0 := rfl

theorem sumTo_succ (table : List (List Nat)) (n : Nat) :
    sumTo table (n + 1) = sumTo table n + segSum table n := by
  unfold sumTo segSum
  rw [List.take_succ, List.map_append, List.sum_append]
  congr 1
  rw [List.getD_eq_getElem?_getD]
  match h : table[n]? with
  | none => simp
  | some pg => simp

theorem sumTo_add (table : List (List Nat)) (base : Nat) :
    ∀ w, sumTo table (base + w) =
      sumTo table base + ((List.range w).map (fun j => segSum table (base + j))).sum := by
  intro w
  induction w with
  | zero => simp
  | succ w ihw =>
      rw [show base + (w + 1) = (base + w) + 1 from rfl, sumTo_succ, ihw,
        List.range_succ, List.map_append, List.sum_append]
      simp only [List.map_cons, List.map_nil, List.sum_cons, List.sum_nil]
      omega

theorem sumTo_mono (table : List (List Nat)) {a b : Nat} (h : a ≤ b) :
    sumTo table a ≤ sumTo table b := by
  obtain ⟨c, rfl⟩ := Nat.exists_eq_add_of_le h
  rw [sumTo_add]
  omega

theorem pendingSum_wave (table : List (List Nat)) (base w : Nat)
    (keyf : Nat → Option Nat) :
    pendingSum table ((List.range w).map
        (fun j => PendingScan.mk (base + j) (base + j) (keyf (base + j)))) =
      ((List.range w).map (fun j => segSum table (base + j))).sum := by
  unfold pendingSum
  rw [List.map_map]
  rfl

/-- The outer scan loop over a single-page table: with fuel exceeding the
number of remaining segments, the pass terminates and the emitted
`scanned` total equals the table's row count. -/
theorem scanLoop_single (table : List (List Nat)) (m : TableMetrics) (mp t : Nat)
    (hpages : ∀ p ∈ table, p.length ≤ 1)
    (hsum : sumTo table t = m.itemCount)
    (hmp : 1 ≤ mp) :
    ∀ (fuel : Nat) (sched : List Nat) (st : ScanSt),
      st.keys = [] → st.scanned = sumTo table st.segmentIndex →
      emitsSum st.emitted = st.scanned → st.segmentIndex ≤ t →
      t - st.segmentIndex < fuel →
      ∃ emits, scanLoop table m mp t fuel sched st = some emits ∧
        emitsSum emits = m.itemCount := by
  intro fuel
  induction fuel with
  | zero =>
      intro sched st _ _ _ _ hf
      omega
  | succ fuel ihf =>
      intro sched st hkeys hscanned hemit hle hf
      simp only [scanLoop]
      by_cases hdone : m.itemCount ≤ st.scanned
      · rw [if_pos hdone]
        refine ⟨st.emitted, rfl, ?_⟩
        have hmono := sumTo_mono table hle
        omega
      · rw [if_neg hdone]
        have hlt : st.segmentIndex < t := by
          rcases Nat.lt_or_ge st.segmentIndex t with h | h
          · exact h
          · have heq : st.segmentIndex = t := Nat.le_antisymm hle h
            rw [heq, hsum] at hscanned
            omega
        have hwave := waveLoop_single table hpages
          (min mp (t - st.segmentIndex))
          ((List.range (min mp (t - st.segmentIndex))).map
            (fun j => PendingScan.mk (st.segmentIndex + j) (st.segmentIndex + j)
              (keysGet st.keys (st.segmentIndex + j))))
          (by simp)
          sched st hkeys
          (by
            intro p hp
            simp only [List.mem_map, List.mem_range] at hp
            obtain ⟨j, _, rfl⟩ := hp
            rw [hkeys]
            rfl)
        obtain ⟨h1, h2, h3, h4⟩ := hwave
        have hplen : ((List.range (min mp (t - st.segmentIndex))).map
            (fun j => PendingScan.mk (st.segmentIndex + j) (st.segmentIndex + j)
              (keysGet st.keys (st.segmentIndex + j)))).length =
            min mp (t - st.segmentIndex) := by simp
        have hpsum : pendingSum table ((List.range (min mp (t - st.segmentIndex))).map
            (fun j => PendingScan.mk (st.segmentIndex + j) (st.segmentIndex + j)
              (keysGet st.keys (st.segmentIndex + j)))) =
            ((List.range (min mp (t - st.segmentIndex))).map
              (fun j => segSum table (st.segmentIndex + j))).sum :=
          pendingSum_wave table st.segmentIndex _ (keysGet st.keys)
        rw [if_neg (by
          intro hcontra
          rw [h3] at hcontra
          simp at hcontra)]
        set st2 := waveLoop table
            ((List.range (min mp (t - st.segmentIndex))).map
              (fun j => PendingScan.mk (st.segmentIndex + j) (st.segmentIndex + j)
                (keysGet st.keys (st.segmentIndex + j)))).length
            ((List.range (min mp (t - st.segmentIndex))).map
              (fun j => PendingScan.mk (st.segmentIndex + j) (st.segmentIndex + j)
                (keysGet st.keys (st.segmentIndex + j)))) sched st with hst2
        obtain ⟨emits, he, hs⟩ := ihf st2.2 st2.1 h3
          (by rw [h2, h1, hplen, hscanned, hpsum, sumTo_add])
          (by rw [h4, h2, hemit])
          (by rw [h1, hplen]; omega)
          (by rw [h1, hplen]; omega)
        exact ⟨emits, he, hs⟩

/-- C3 (amended): for every table whose segments each fit in a single
scan page, every `maxParallel ≥ 1` and every completion order of the
in-flight requests, one `scanParallel` pass terminates and the
`meta.scanned` values of the emitted results sum to exactly the table's
true row count (= `metrics.itemCount`), the pass ending once the
accumulated scanned count reaches it.  The claim's original
multi-page/unrestricted form is refuted by
`C3_counterexample_requeued_segment`: when a multi-page segment's first
page completes before a single-page segment in the same wave, the
`segmentIndex` bookkeeping re-launches the already-exhausted segment
from scratch and its items are scanned and emitted twice. -/
theorem C3_scan_sum_single_page (table : List (List Nat)) (m : TableMetrics)
    (mp : Nat) (sched : List Nat) (t : Nat)
    (hpages : ∀ p ∈ table, p.length ≤ 1)
    (hts : totalSegmentsE m = Except.ok t)
    (hlen : table.length = t)
    (hsum : (table.map List.sum).sum = m.itemCount)
    (hmp : 1 ≤ mp) :
    ∃ emits, scanParallelRun table m mp sched (t + 1) = Except.ok (some emits) ∧
      emitsSum emits = m.itemCount := by
  have hsum' : sumTo table t = m.itemCount := by
    unfold sumTo
    rw [← hlen, List.take_length]
    exact hsum
  obtain ⟨emits, he, hs⟩ := scanLoop_single table m mp t hpages hsum' hmp
    (t + 1) sched ⟨0, 0, [], []⟩ rfl rfl rfl (Nat.zero_le t)
    (show t - 0 < t + 1 by omega)
  refine ⟨emits, ?_, hs⟩
  unfold scanParallelRun
  rw [hts]
  exact congrArg Except.ok he

/-- C3 witness: a two-segment single-page table scanned with
`maxParallel = 2` under a schedule that completes segment 1 before
segment 0. -/
theorem C3_scan_sum_single_page_witness :
    ∃ emits, scanParallelRun [[2], [2]] ⟨800000, 4, 0⟩ 2 [1, 0] 3 =
        Except.ok (some emits) ∧ emitsSum emits = 4 :=
  C3_scan_sum_single_page [[2], [2]] ⟨800000, 4, 0⟩ 2 [1, 0] 2
    (by decide) rfl rfl rfl (by decide)

/-- C3 counterexample: table with segment 0 = two pages of one item and
segment 1 = one page of two items (true row count 4 =
`metrics.itemCount`; `totalSegments = 2`; `maxParallel = 2 ∈
[1, itemCount]`).  Under the completion order in which segment 0's first
page (which carries a pagination bookmark) is reaped before segment 1's
only page, `segmentIndex` advances past segment 1 only, the next wave
re-launches the exhausted segment 1 with no bookmark, and its two items
are scanned and emitted twice: the emitted `scanned` values sum to 5,
not 4. -/
theorem C3_counterexample_requeued_segment :
    totalSegmentsE ⟨800000, 4, 0⟩ = Except.ok 2 ∧
    (([[1, 1], [2]] : List (List Nat)).map List.sum).sum = 4 ∧
    scanParallelRun [[1, 1], [2]] ⟨800000, 4, 0⟩ 2 [0, 0, 0] 5 =
      Except.ok (some [⟨0, 1⟩, ⟨1, 2⟩, ⟨1, 2⟩]) ∧
    emitsSum [⟨0, 1⟩, ⟨1, 2⟩, ⟨1, 2⟩] = 5 := by
  refine ⟨rfl, rfl, rfl, rfl⟩

/-- With `totalSegments = 0` (see `C5_counterexample_no_lower_clamp`)
the outer loop makes no progress at all: no wave is ever formed, no
request issued, and the pass never terminates (`none` for every fuel). -/
theorem scanParallel_zero_segments_no_progress :
    ∀ (fuel : Nat) (mp : Nat) (sched : List Nat),
      scanParallelRun [] ⟨3145728, 1, 0⟩ mp sched fuel = Except.ok none := by
  have hloop : ∀ (fuel : Nat) (mp : Nat) (sched : List Nat),
      scanLoop [] ⟨3145728, 1, 0⟩ mp 0 fuel sched ⟨0, 0, [], []⟩ = none := by
    intro fuel
    induction fuel with
    | zero => intro mp sched; rfl
    | succ fuel ihf =>
        intro mp sched
        simp only [scanLoop]
        rw [if_neg (by decide)]
        simp only [Nat.sub_zero, Nat.min_zero, List.range_zero, List.map_nil,
          List.length_nil, waveLoop]
        rw [if_neg (by simp)]
        exact ihf mp sched
  intro fuel mp sched
  unfold scanParallelRun
  rw [show totalSegmentsE ⟨3145728, 1, 0⟩ = Except.ok 0 from rfl]
  exact congrArg Except.ok (hloop fuel mp sched)

/-- C5 counterexample: metrics with both fields positive —
`tableSizeBytes = 3 · 2^20`, `itemCount = 1` — for which the computed
segment count is `0`, not `≥ 1`: the average item size exceeds twice the
page-size approximation, `getApproximateItemsLimit` clamps to `1`,
`Math.floor(1 / 2) = 0`, and `Math.min(0, 10000, 1) = 0`; the claimed
lower clamp to 1 does not exist in the code. -/
theorem C5_counterexample_no_lower_clamp :
    (0 : Nat) < 1 ∧ (0 : Nat) < 3145728 ∧
    getApproximateItemsLimitE ⟨3145728, 1, 0⟩ = Except.ok 1 ∧
    totalSegmentsE ⟨3145728, 1, 0⟩ = Except.ok 0 ∧ ¬(1 ≤ (0 : Nat)) := by
  refine ⟨by decide, by decide, rfl, rfl, by decide⟩

/-- C5 (amended): the segment count computed once at the start of
`scanParallel` equals `min(⌊approximateItemsLimit / 2⌋, 10000,
itemCount)`; it never exceeds `min(10000, itemCount)`, and it is at
least 1 whenever the item-size-derived page approximation
`approximateItemsLimit = ⌊0.9 MiB / (tableSizeBytes / itemCount)⌋` is at
least 2 (in particular `t = 1` when `itemCount = 1`).  When the
approximation is below 2 — items averaging more than ~0.45 MiB — the
count is 0, there is no lower clamp to 1, and the pass makes no progress
(`scanParallel_zero_segments_no_progress`). -/
theorem C5_segment_clamp (m : TableMetrics)
    (hic : 1 ≤ m.itemCount) (hts : 1 ≤ m.tableSizeBytes)
    (happrox : 2 ≤ 4718592 * m.itemCount / (5 * m.tableSizeBytes)) :
    ∃ t, totalSegmentsE m = Except.ok t ∧ 1 ≤ t ∧ t ≤ min 10000 m.itemCount ∧
      (m.itemCount = 1 → t = 1) := by
  unfold totalSegmentsE getApproximateItemsLimitE
  rw [if_neg (by omega)]
  have hmax : max (4718592 * m.itemCount / (5 * m.tableSizeBytes)) 1 =
      4718592 * m.itemCount / (5 * m.tableSizeBytes) :=
    Nat.max_eq_left (by omega)
  have hdiv : 1 ≤ 4718592 * m.itemCount / (5 * m.tableSizeBytes) / 2 := by
    omega
  refine ⟨_, rfl, ?_, ?_, ?_⟩
  · rw [hmax]
    exact le_min (le_min hdiv (by decide)) hic
  · exact le_min (le_trans (min_le_left _ _) (min_le_right _ _)) (min_le_right _ _)
  · intro h1
    refine Nat.le_antisymm (le_trans (min_le_right _ _) (le_of_eq h1)) ?_
    rw [hmax]
    exact le_min (le_min hdiv (by decide)) hic

/-- C5 witness: 4 items of 200 kB — the approximation is 4, the segment
count is `min(2, 10000, 4) = 2`. -/
theorem C5_segment_clamp_witness :
    ∃ t, totalSegmentsE ⟨800000, 4, 0⟩ = Except.ok t ∧ 1 ≤ t ∧
      t ≤ min 10000 (4 : Nat) ∧ ((4 : Nat) = 1 → t = 1) :=
  C5_segment_clamp ⟨800000, 4, 0⟩ (by decide) (by decide) (by decide)

/-- C9 (confirmed): `scanParallel` rejects degenerate metrics — and only
those — before anything else happens: `getApproximateItemsLimit` throws
exactly when `itemCount = 0` or `tableSizeBytes = 0`, and it is
evaluated while computing `totalSegments`, before the first wave of
segment requests is even formed (in the model, the `Except.error`
short-circuits before `scanLoop` runs, so no request exists); for
metrics with both fields positive no precondition error is raised. -/
theorem C9_degenerate_metrics_precondition (table : List (List Nat))
    (m : TableMetrics) (mp : Nat) (sched : List Nat) (fuel : Nat) :
    (scanParallelRun table m mp sched fuel = Except.error () ↔
      (m.itemCount = 0 ∨ m.tableSizeBytes = 0)) := by
  unfold scanParallelRun totalSegmentsE getApproximateItemsLimitE
  by_cases h : m.itemCount = 0 ∨ m.tableSizeBytes = 0
  · rw [if_pos h]
    exact iff_of_true rfl h
  · rw [if_neg h]
    constructor
    · intro hcontra
      exact absurd hcontra (by simp [Except.map])
    · intro hcontra
      exact absurd hcontra h

/-! ## § Freshness oracle (`DynamoDBSyncManager.hasChanges`)

`hasChanges` decides cache reuse: coarse comparison of
`{tableSize, sequenceRange}` via `JSON.stringify` (modelled as structural
equality — `stringify` drops an `undefined` `sequenceRange`, so an
absent cached range never equals a present current one), then a full
read of the change-stream shard iterators, paging each shard until its
`NextShardIterator` chain ends; `0 !== records.length` is the verdict.
The shard contents delivered by the backend are a parameter: each shard
is its ordered list of pages. -/

/-- A change-stream record, reduced to the only field the filter
consults: `dynamodb.ApproximateCreationDateTime` (epoch ms), absent when
the record carries none. -/
structure StreamRecord where
  creationTime : Option Int
  deriving Repr, DecidableEq

/-- The per-record filter of `DynamoDBStreams.getStreamRecords` when
`lastRecordTimestamp` is supplied (as `hasChanges` always does): a
record is skipped only when it HAS a creation time and that time is
`<=` the cached timestamp; a record with no creation time bypasses the
filter entirely and is kept. -/
def keepRecord (lastTs : Int) (r : StreamRecord) : Bool :=
  match r.creationTime with
  | some t => if t ≤ lastTs then false else true
  | none => true

/-- One `getStreamRecords` call: one page, filtered. -/
def getStreamRecordsFiltered (lastTs : Int) (page : List StreamRecord) :
    List StreamRecord :=
  page.filter (keepRecord lastTs)

/-- The `do { … } while (currentShardIterator)` loop of `hasChanges`
over one shard's page chain. -/
def readShard (lastTs : Int) : List (List StreamRecord) → List StreamRecord
  | [] => []
  | page :: pages => getStreamRecordsFiltered lastTs page ++ readShard lastTs pages

/-- `records` accumulated across all shards. -/
def readShards (lastTs : Int) (shards : List (List (List StreamRecord))) :
    List StreamRecord :=
  (shards.map (readShard lastTs)).flatten

/-- Every record the shards hold, unfiltered. -/
def allRecords (shards : List (List (List StreamRecord))) : List StreamRecord :=
  (shards.map List.flatten).flatten

/-- `DynamoDBSyncManager.hasChanges`.  `shards` is what
`getAfterSequenceNumber` / `getHorizon` produced (`none` when the stream
could not be queried); `sample`/`cur` as in the source.  Falls through
to `true` (changed) whenever the cached entry, the current sequence
range, or a non-empty shard list is missing. -/
def hasChanges (sample : Option CacheMetadata) (cur : Option SequenceNumberRange)
    (metrics : TableMetrics)
    (shards : Option (List (List (List StreamRecord)))) : Bool :=
  match sample, cur with
  | some s, some c =>
      if s.tableSize = metrics.tableSizeBytes ∧ s.sequenceRange = some c then
        match shards with
        | some l =>
            if l.length ≠ 0 then decide (readShards s.timestamp l ≠ []) else true
        | none => true
      else true
  | _, _ => true

/-- `DynamoDBSyncManager.getRecords` at the cache decision point: the
batches the caller sees and whether a live scan path was taken (`true`)
or the cached extract replayed (`false`). -/
def getRecordsModel {α : Type} (useCache : Bool) (cache : Option (StagedCacheData α))
    (cur : Option SequenceNumberRange) (metrics : TableMetrics)
    (shards : Option (List (List (List StreamRecord))))
    (liveScan : List α) : List α × Bool :=
  if useCache then
    match cache with
    | some sample =>
        if hasChanges (some sample.metadata) cur metrics shards then (liveScan, true)
        else (sample.extract, false)
    | none => (liveScan, true)
  else (liveScan, true)

theorem keepRecord_iff (lastTs : Int) (r : StreamRecord) :
    keepRecord lastTs r = true ↔
      (r.creationTime = none ∨ ∃ t, r.creationTime = some t ∧ lastTs < t) := by
  unfold keepRecord
  match h : r.creationTime with
  | none => simp
  | some t =>
      dsimp only
      by_cases hle : t ≤ lastTs
      · rw [if_pos hle]
        simp only [Bool.false_eq_true, false_iff]
        rintro (hc | ⟨t', ht', hlt⟩)
        · cases hc
        · cases ht'
          omega
      · rw [if_neg hle]
        simp only [true_iff]
        exact Or.inr ⟨t, rfl, by omega⟩

theorem readShard_eq_filter (lastTs : Int) :
    ∀ (pages : List (List StreamRecord)),
      readShard lastTs pages = pages.flatten.filter (keepRecord lastTs) := by
  intro pages
  induction pages with
  | nil => rfl
  | cons page pages ih =>
      simp only [readShard, getStreamRecordsFiltered, List.flatten_cons,
        List.filter_append, ih]

theorem readShards_eq_filter (lastTs : Int)
    (shards : List (List (List StreamRecord))) :
    readShards lastTs shards = (allRecords shards).filter (keepRecord lastTs) := by
  unfold readShards allRecords
  induction shards with
  | nil => rfl
  | cons sh shards ih =>
      simp only [List.map_cons, List.flatten_cons, List.filter_append, ih,
        readShard_eq_filter]

/-- C2 (amended): with a cached entry present, the coarse
`{tableSizeBytes, sequenceRange}` comparison matching, and a non-empty
shard-iterator list obtained, `hasChanges` returns `true` **iff** the
full shard read yields at least one record that either has a creation
time strictly after the cached timestamp or has no creation time at all
(such records bypass the filter); and whenever zero such records exist
across all shards, `getRecords` with `useCache = true` replays the
cached batch sequence and takes no live-scan path.  The claim's original
"iff at least one record whose creation time is strictly after"
overstates the filter: a timestampless record also flips the verdict
(`C2_counterexample_missing_creation_time`), and an empty/unobtainable
shard list yields `true` (changed) even though zero records exist. -/
theorem C2_freshness_decision (ms : CacheMetadata) (schema : CacheSchema)
    (extract : List Nat) (c : SequenceNumberRange) (metrics : TableMetrics)
    (shards : List (List (List StreamRecord))) (liveScan : List Nat)
    (hcoarse : ms.tableSize = metrics.tableSizeBytes ∧ ms.sequenceRange = some c)
    (hne : shards ≠ []) :
    (hasChanges (some ms) (some c) metrics (some shards) = true ↔
      ∃ r ∈ allRecords shards,
        r.creationTime = none ∨ ∃ t, r.creationTime = some t ∧ ms.timestamp < t) ∧
    ((∀ r ∈ allRecords shards,
        ¬(r.creationTime = none ∨ ∃ t, r.creationTime = some t ∧ ms.timestamp < t)) →
      getRecordsModel true (some ⟨ms, schema, extract⟩) (some c) metrics
        (some shards) liveScan = (extract, false)) := by
  have hlen : shards.length ≠ 0 := fun h => hne (List.length_eq_zero.mp h)
  have hchanges : hasChanges (some ms) (some c) metrics (some shards) =
      decide (readShards ms.timestamp shards ≠ []) := by
    simp only [hasChanges]
    rw [if_pos hcoarse, if_pos hlen]
  have hiff : hasChanges (some ms) (some c) metrics (some shards) = true ↔
      ∃ r ∈ allRecords shards,
        r.creationTime = none ∨ ∃ t, r.creationTime = some t ∧ ms.timestamp < t := by
    rw [hchanges, decide_eq_true_iff, readShards_eq_filter]
    constructor
    · intro hfne
      match hmatch : (allRecords shards).filter (keepRecord ms.timestamp) with
      | [] => exact absurd hmatch hfne
      | r :: rest =>
          have hrmem : r ∈ (allRecords shards).filter (keepRecord ms.timestamp) := by
            rw [hmatch]
            exact List.mem_cons_self r rest
          rw [List.mem_filter] at hrmem
          exact ⟨r, hrmem.1, (keepRecord_iff ms.timestamp r).mp hrmem.2⟩
    · rintro ⟨r, hrmem, hr⟩ hfil
      rw [List.filter_eq_nil_iff] at hfil
      exact hfil r hrmem ((keepRecord_iff ms.timestamp r).mpr hr)
  refine ⟨hiff, ?_⟩
  intro hzero
  have hfalse : hasChanges (some ms) (some c) metrics (some shards) = false := by
    cases h : hasChanges (some ms) (some c) metrics (some shards) with
    | false => rfl
    | true =>
        obtain ⟨r, hrmem, hr⟩ := hiff.mp h
        exact absurd hr (hzero r hrmem)
  simp only [getRecordsModel, if_true]
  rw [hfalse]
  rfl

/-- C2 witness: cached entry `{tableSize 1000, sequenceRange start 100,
timestamp 1000}` matching the current values; one shard, one page of a
single record timestamped 1005 (strictly after the cached 1000) ⇒ the
iff certifies `hasChanges = true`; and the zero-qualifying variant (a
record timestamped 900) certifies the cache replay with no live scan. -/
theorem C2_freshness_decision_witness :
    (hasChanges (some ⟨1000, 10, none, some ⟨some 100, none⟩, 1000⟩)
        (some ⟨some 100, none⟩) ⟨1000, 10, 0⟩ (some [[[⟨some 1005⟩]]]) = true ↔
      ∃ r ∈ allRecords [[[⟨some 1005⟩]]],
        r.creationTime = none ∨
          ∃ t, r.creationTime = some t ∧ (1000 : Int) < t) ∧
    ((∀ r ∈ allRecords [[[StreamRecord.mk (some 1005)]]],
        ¬(r.creationTime = none ∨
          ∃ t, r.creationTime = some t ∧ (1000 : Int) < t)) →
      getRecordsModel true
        (some ⟨⟨1000, 10, none, some ⟨some 100, none⟩, 1000⟩, ⟨1, none⟩, [7]⟩)
        (some ⟨some 100, none⟩) ⟨1000, 10, 0⟩ (some [[[⟨some 1005⟩]]]) [9] =
        ([7], false)) :=
  C2_freshness_decision ⟨1000, 10, none, some ⟨some 100, none⟩, 1000⟩ ⟨1, none⟩
    [7] ⟨some 100, none⟩ ⟨1000, 10, 0⟩ [[[⟨some 1005⟩]]] [9]
    ⟨rfl, rfl⟩ (by decide)

/-- C2 counterexample: same matching coarse setup, one shard holding a
single record with **no** `ApproximateCreationDateTime`.  The code keeps
that record (the filter is skipped entirely for it), so `hasChanges`
returns `true` — yet no record has a creation time strictly after the
cached timestamp, refuting the claim's "if and only if". -/
theorem C2_counterexample_missing_creation_time :
    hasChanges (some ⟨1000, 10, none, some ⟨some 100, none⟩, 1000⟩)
      (some ⟨some 100, none⟩) ⟨1000, 10, 0⟩ (some [[[⟨none⟩]]]) = true ∧
    ¬∃ r ∈ allRecords [[[StreamRecord.mk none]]],
        ∃ t, r.creationTime = some t ∧ (1000 : Int) < t := by
  constructor
  · rfl
  · rintro ⟨r, hrmem, t, ht, _⟩
    have : r = StreamRecord.mk none := by
      simpa [allRecords] using hrmem
    rw [this] at ht
    cases ht

/-! ## Store read-write exclusion (`get` vs an in-flight `set`)

`writeBinary` assigns `this.writePromise` synchronously, before the first
frame is written; the promise resolves in the write stream\'s `end`
callback.  `get` checks `this.writePromise` and awaits it when set before
touching either file.  We model the interleaving of one `set` (writer)
and one `get` (getter) as a transition system driven by a schedule of
booleans (`true` = writer step). -/

inductive WriterPhase where
  | beforeClear
  | clearedJson
  | cleared
  | writing (remaining : Nat)
  | ended
  | sidecarDone
deriving DecidableEq, Repr

inductive GetterPhase where
  | invoked
  | awaitingPromise
  | reading
  | doneG
deriving DecidableEq, Repr

/-- Joint state of one in-flight `set` and one concurrent `get` for the
same key.  `frames` is the number of batches the upstream generator will
yield; `promiseAssigned`/`promiseResolved` track `this.writePromise`;
`checkedInFlight` records that the getter\'s `if (this.writePromise)`
check observed a pending promise and awaited it. -/
structure StoreState where
  frames : Nat
  writer : WriterPhase
  getter : GetterPhase
  promiseAssigned : Bool
  promiseResolved : Bool
  checkedInFlight : Bool
deriving DecidableEq, Repr

def storeInit (frames : Nat) : StoreState :=
  ⟨frames, WriterPhase.beforeClear, GetterPhase.invoked, false, false, false⟩

/-- One writer step of `set`: unlink the sidecar, unlink the binary
(`clear`), then `writeBinary` — which assigns `writePromise` before any
frame write — then one frame per step, the stream-`end` callback that
resolves the promise, and finally the sidecar write chained after it. -/
def writerStep (s : StoreState) : StoreState :=
  match s.writer with
  | WriterPhase.beforeClear => { s with writer := WriterPhase.clearedJson }
  | WriterPhase.clearedJson => { s with writer := WriterPhase.cleared }
  | WriterPhase.cleared =>
      { s with writer := WriterPhase.writing s.frames, promiseAssigned := true }
  | WriterPhase.writing 0 =>
      { s with writer := WriterPhase.ended, promiseResolved := true }
  | WriterPhase.writing (n + 1) => { s with writer := WriterPhase.writing n }
  | WriterPhase.ended => { s with writer := WriterPhase.sidecarDone }
  | WriterPhase.sidecarDone => s

/-- One getter step of `get`: the `if (this.writePromise)` check (awaiting
when a pending promise is observed), resumption once that promise
resolves, and the actual file read (`getInternal`). -/
def getterStep (s : StoreState) : StoreState :=
  match s.getter with
  | GetterPhase.invoked =>
      if s.promiseAssigned && !s.promiseResolved then
        { s with getter := GetterPhase.awaitingPromise, checkedInFlight := true }
      else { s with getter := GetterPhase.reading }
  | GetterPhase.awaitingPromise =>
      if s.promiseResolved then { s with getter := GetterPhase.reading } else s
  | GetterPhase.reading => { s with getter := GetterPhase.doneG }
  | GetterPhase.doneG => s

def storeStep (s : StoreState) : Bool → StoreState
  | true => writerStep s
  | false => getterStep s

def storeRun (s : StoreState) : List Bool → StoreState
  | [] => s
  | l :: ls => storeRun (storeStep s l) ls

/-- Invariant: the promise resolves only once the binary stream has
ended; the getter\'s in-flight flag is unset until its check runs; and a
getter past its check with the flag set saw the promise resolve. -/
@[reducible] def StoreInv (s : StoreState) : Prop :=
  (s.promiseResolved = true →
    s.writer = WriterPhase.ended ∨ s.writer = WriterPhase.sidecarDone) ∧
  (s.getter = GetterPhase.invoked → s.checkedInFlight = false) ∧
  ((s.getter = GetterPhase.reading ∨ s.getter = GetterPhase.doneG) →
    s.checkedInFlight = true → s.promiseResolved = true)

theorem storeInit_inv (frames : Nat) : StoreInv (storeInit frames) :=
  ⟨(fun h => nomatch h), ⟨fun _ => rfl, fun _ hc => nomatch hc⟩⟩

theorem writerStep_inv :
    ∀ (s : StoreState), StoreInv s → StoreInv (writerStep s)
  | ⟨f, WriterPhase.beforeClear, g, pa, pr, ci⟩, ⟨h1, h2, h3⟩ =>
      ⟨fun hres => absurd (h1 hres) (by simp), ⟨h2, h3⟩⟩
  | ⟨f, WriterPhase.clearedJson, g, pa, pr, ci⟩, ⟨h1, h2, h3⟩ =>
      ⟨fun hres => absurd (h1 hres) (by simp), ⟨h2, h3⟩⟩
  | ⟨f, WriterPhase.cleared, g, pa, pr, ci⟩, ⟨h1, h2, h3⟩ =>
      ⟨fun hres => absurd (h1 hres) (by simp), ⟨h2, h3⟩⟩
  | ⟨f, WriterPhase.writing 0, g, pa, pr, ci⟩, ⟨h1, h2, h3⟩ =>
      ⟨fun _ => Or.inl rfl, ⟨h2, fun _ _ => rfl⟩⟩
  | ⟨f, WriterPhase.writing (n + 1), g, pa, pr, ci⟩, ⟨h1, h2, h3⟩ =>
      ⟨fun hres => absurd (h1 hres) (by simp), ⟨h2, h3⟩⟩
  | ⟨f, WriterPhase.ended, g, pa, pr, ci⟩, ⟨h1, h2, h3⟩ =>
      ⟨fun _ => Or.inr rfl, ⟨h2, h3⟩⟩
  | ⟨f, WriterPhase.sidecarDone, g, pa, pr, ci⟩, ⟨h1, h2, h3⟩ =>
      ⟨h1, ⟨h2, h3⟩⟩

theorem getterStep_inv (s : StoreState) (h : StoreInv s) :
    StoreInv (getterStep s) := by
  obtain ⟨h1, h2, h3⟩ := h
  cases hg : s.getter with
  | invoked =>
      have hci : s.checkedInFlight = false := h2 hg
      by_cases hcond : (s.promiseAssigned && !s.promiseResolved) = true
      · have hs : getterStep s =
            { s with getter := GetterPhase.awaitingPromise,
                     checkedInFlight := true } := by
          unfold getterStep
          rw [hg, if_pos hcond]
        rw [hs]
        exact ⟨h1, ⟨(fun hgi => nomatch hgi),
          fun hgr _ => hgr.elim (fun h => nomatch h) (fun h => nomatch h)⟩⟩
      · have hs : getterStep s = { s with getter := GetterPhase.reading } := by
          unfold getterStep
          rw [hg, if_neg hcond]
        rw [hs]
        refine ⟨h1, ⟨(fun hgi => nomatch hgi), ?_⟩⟩
        intro _ hc
        have hc' : s.checkedInFlight = true := hc
        rw [hci] at hc'
        cases hc'
  | awaitingPromise =>
      by_cases hres : s.promiseResolved = true
      · have hs : getterStep s = { s with getter := GetterPhase.reading } := by
          unfold getterStep
          rw [hg, if_pos hres]
        rw [hs]
        exact ⟨h1, ⟨(fun hgi => nomatch hgi), fun _ _ => hres⟩⟩
      · have hs : getterStep s = s := by
          unfold getterStep
          rw [hg, if_neg hres]
        rw [hs]
        exact ⟨h1, h2, h3⟩
  | reading =>
      have hs : getterStep s = { s with getter := GetterPhase.doneG } := by
        unfold getterStep
        rw [hg]
      rw [hs]
      refine ⟨h1, ⟨(fun hgi => nomatch hgi), ?_⟩⟩
      intro _ hc
      exact h3 (Or.inl hg) hc
  | doneG =>
      have hs : getterStep s = s := by
        unfold getterStep
        rw [hg]
      rw [hs]
      exact ⟨h1, h2, h3⟩

theorem storeStep_inv (s : StoreState) (l : Bool) (h : StoreInv s) :
    StoreInv (storeStep s l) := by
  cases l with
  | true => exact writerStep_inv s h
  | false => exact getterStep_inv s h

theorem storeRun_inv :
    ∀ (sched : List Bool) (s : StoreState), StoreInv s → StoreInv (storeRun s sched)
  | [], _, h => h
  | l :: ls, s, h => storeRun_inv ls (storeStep s l) (storeStep_inv s l h)

/-- C8: read-write exclusion via the tracked in-flight write promise.
For every frame count and every interleaving of one `set` and one `get`
for the same key, whenever the `get` has reached (or finished) its file
read after its `if (this.writePromise)` check observed a pending write,
that write\'s promise has resolved — and the promise resolves only in the
binary stream\'s `end` callback, so the binary payload is fully written
(the writer is at or past stream end) before the `get` reads either
file.  A `get` thus never observes a half-written cache entry from a
write it saw in flight. -/
theorem C8_get_waits_for_inflight_write (frames : Nat) (sched : List Bool)
    (hget : (storeRun (storeInit frames) sched).getter = GetterPhase.reading ∨
            (storeRun (storeInit frames) sched).getter = GetterPhase.doneG)
    (hchk : (storeRun (storeInit frames) sched).checkedInFlight = true) :
    (storeRun (storeInit frames) sched).promiseResolved = true ∧
    ((storeRun (storeInit frames) sched).writer = WriterPhase.ended ∨
     (storeRun (storeInit frames) sched).writer = WriterPhase.sidecarDone) := by
  obtain ⟨h1, _, h3⟩ := storeRun_inv sched (storeInit frames) (storeInit_inv frames)
  have hres := h3 hget hchk
  exact ⟨hres, h1 hres⟩

/-- C8 witness: a one-frame `set` interleaved with a `get` that checks
while the frame write is in flight (schedule: three writer steps through
`writePromise` assignment, the getter\'s check, frame write and stream
end, then the getter\'s resumption and read). -/
theorem C8_get_waits_for_inflight_write_witness :
    ((storeRun (storeInit 1) [true, true, true, false, true, true, false, false]).getter =
        GetterPhase.doneG ∧
      (storeRun (storeInit 1)
          [true, true, true, false, true, true, false, false]).checkedInFlight = true) ∧
    ((storeRun (storeInit 1)
          [true, true, true, false, true, true, false, false]).promiseResolved = true ∧
      ((storeRun (storeInit 1) [true, true, true, false, true, true, false, false]).writer =
          WriterPhase.ended ∨
        (storeRun (storeInit 1) [true, true, true, false, true, true, false, false]).writer =
          WriterPhase.sidecarDone)) :=
  ⟨⟨rfl, rfl⟩,
    C8_get_waits_for_inflight_write 1 [true, true, true, false, true, true, false, false]
      (Or.inr rfl) rfl⟩

end NodeDbKraken
